import Mathlib

/-!
# Power-supply front-end firmware: telemetry codec, command dispatcher, PWM carrier

A shallow embedding of `SerialComms.cpp`, `PowerState.h/.cpp`, `Config.cpp` and `Current.cpp`
(timer set-up and current signal conditioner), followed by the properties established about
them.

Modelling conventions
* `float` is IEEE-754 binary32 with round-to-nearest-even: a value is a finite number, an
  infinity or NaN, and every arithmetic operation rounds its exact result (`rnd`); an
  expression is evaluated operation by operation, products and sums are not fused.  Finite
  values are carried as rationals; the two zeros are not told apart (no operation of the source
  can distinguish them).  Theorems quantify over all values of the carrier, which contains
  every binary32 number.
* `uint32_t` / `uint64_t` values are natural numbers, reduced `% 2^32` / `% 2^64` wherever the
  C operation can wrap; `int32_t` and `long` values are integers in `[-2^31, 2^31)` (the target
  is a 32-bit ARM core).
* Conversions from `float` to an integer type whose result does not fit are left unspecified
  by the C standard; they are modelled as on the target FPU: the result saturates, NaN gives 0.
* `static` variables become explicit state that is passed in and returned.
-/

namespace Firmware

/-! ## Binary32 arithmetic -/

/-- A `float`: a finite value, `+inf`, `-inf` or NaN. -/
inductive F32 where
  | fin (q : ℚ)
  | pinf
  | ninf
  | nan
deriving DecidableEq

/-- The comparison `x < y` of two floats; false whenever one of them is NaN. -/
def F32.lt : F32 → F32 → Prop
  | .fin a, .fin b => a < b
  | .fin _, .pinf => True
  | .ninf, .fin _ => True
  | .ninf, .pinf => True
  | _, _ => False

/-- The comparison `x <= y` of two floats; false whenever one of them is NaN. -/
def F32.le : F32 → F32 → Prop
  | .fin a, .fin b => a ≤ b
  | .fin _, .pinf => True
  | .ninf, .fin _ => True
  | .ninf, .pinf => True
  | .pinf, .pinf => True
  | .ninf, .ninf => True
  | _, _ => False

instance : LT F32 := ⟨F32.lt⟩

instance : LE F32 := ⟨F32.le⟩

instance F32.decLt (x y : F32) : Decidable (x < y) := by
  cases x <;> cases y <;> simp only [LT.lt, F32.lt] <;> infer_instance

instance F32.decLe (x y : F32) : Decidable (x ≤ y) := by
  cases x <;> cases y <;> simp only [LE.le, F32.le] <;> infer_instance

/-- Rounding a rational to the nearest integer, halfway cases to the even neighbour. -/
def rhe (x : ℚ) : ℤ :=
  if x - ⌊x⌋ < 1 / 2 then ⌊x⌋
  else if 1 / 2 < x - ⌊x⌋ then ⌊x⌋ + 1
  else if ⌊x⌋ % 2 = 0 then ⌊x⌋ else ⌊x⌋ + 1

/-- The binary exponent that fixes the spacing of binary32 numbers around `q`:
`floor(log2 |q|)`, but not below the exponent `-126` of the subnormal range. -/
def binade (q : ℚ) : ℤ := if q = 0 then -126 else max (Int.log 2 |q|) (-126)

/-- The spacing of binary32 numbers around `q` (24 significant bits). -/
def ulp (q : ℚ) : ℚ := 2 ^ (binade q - 23)

/-- The multiple of `ulp q` nearest to `q`, ties to even. -/
def rv (q : ℚ) : ℚ := (rhe (q / ulp q) : ℚ) * ulp q

/-- Rounding an exact result to binary32: the nearest representable value, an infinity when
that value lies beyond the largest finite binary32 number. -/
def rnd (q : ℚ) : F32 :=
  if |rv q| < 2 ^ 128 then .fin (rv q) else if 0 < q then .pinf else .ninf

/-- A decimal literal of the source such as `0.9f`: the binary32 number nearest to it. -/
def F32.lit (q : ℚ) : F32 := rnd q

/-- The conversions `(float)` of an `int` and of a `uint32_t`. -/
def F32.of_int (z : ℤ) : F32 := rnd z

/-- Negation of a float. -/
def F32.neg : F32 → F32
  | .fin q => .fin (-q)
  | .pinf => .ninf
  | .ninf => .pinf
  | .nan => .nan

/-- Float addition. -/
def F32.add : F32 → F32 → F32
  | .fin a, .fin b => rnd (a + b)
  | .fin _, .pinf => .pinf
  | .fin _, .ninf => .ninf
  | .pinf, .fin _ => .pinf
  | .ninf, .fin _ => .ninf
  | .pinf, .pinf => .pinf
  | .ninf, .ninf => .ninf
  | _, _ => .nan

/-- Float subtraction. -/
def F32.sub (x y : F32) : F32 := F32.add x (F32.neg y)

/-- The infinity with the sign of `a`, for the product or quotient of a non-zero finite value
and an infinity. -/
def F32.signed_inf (a : ℚ) : F32 := if 0 < a then .pinf else .ninf

/-- Float multiplication. -/
def F32.mul : F32 → F32 → F32
  | .fin a, .fin b => rnd (a * b)
  | .fin a, .pinf => if a = 0 then .nan else F32.signed_inf a
  | .fin a, .ninf => if a = 0 then .nan else F32.signed_inf (-a)
  | .pinf, .fin b => if b = 0 then .nan else F32.signed_inf b
  | .ninf, .fin b => if b = 0 then .nan else F32.signed_inf (-b)
  | .pinf, .pinf => .pinf
  | .ninf, .ninf => .pinf
  | .pinf, .ninf => .ninf
  | .ninf, .pinf => .ninf
  | _, _ => .nan

/-- Float division.  A zero divisor counts as `+0`; the source divides only by the non-zero
constants `4095.0f` and `8500.0f`. -/
def F32.div : F32 → F32 → F32
  | .fin a, .fin b =>
    if b = 0 then (if a = 0 then .nan else F32.signed_inf a) else rnd (a / b)
  | .fin _, .pinf => .fin 0
  | .fin _, .ninf => .fin 0
  | .pinf, .fin b => if 0 ≤ b then .pinf else .ninf
  | .ninf, .fin b => if 0 ≤ b then .ninf else .pinf
  | _, _ => .nan

/-- Nearest integer, halfway cases away from zero. -/
def round_half_away (x : ℚ) : ℤ :=
  if 0 ≤ x then ⌊x + 1 / 2⌋ else -⌊-x + 1 / 2⌋

/-- The libm function `lroundf`: nearest integer, halfway cases away from zero, returned as a
`long` (32 bits on the target).  Where the rounded value does not fit, and for NaN, the C
standard leaves the result unspecified; the definition takes the result of the target's
float-to-integer conversion, which saturates and gives 0 for NaN. -/
def lroundf : F32 → ℤ
  | .fin q => max (-2 ^ 31) (min (round_half_away q) (2 ^ 31 - 1))
  | .pinf => 2 ^ 31 - 1
  | .ninf => -2 ^ 31
  | .nan => 0

/-- The conversion `(uint32_t)` of a float: the fraction is discarded.  Where the value does
not fit the result is that of the target's conversion: it saturates, NaN gives 0. -/
def f32_to_uint32 : F32 → ℕ
  | .fin q => if q < 0 then 0 else min ⌊q⌋.toNat (2 ^ 32 - 1)
  | .pinf => 2 ^ 32 - 1
  | .ninf => 0
  | .nan => 0

/-- A rational is a binary32 number: an integer of fewer than 25 bits times a power of two
within the exponent range. -/
def representable (g : ℚ) : Prop :=
  ∃ k j : ℤ, |k| < 2 ^ 24 ∧ -149 ≤ j ∧ j ≤ 104 ∧ g = (k : ℚ) * 2 ^ j

/-! ## Shared power state (`PowerState.h`, `PowerState.cpp`) -/

/-- The static fields of `struct PowerState`. -/
structure PowerState where
  setVoltage : F32
  setCurrent : F32
  probeVoltageOutput : F32
  probeCurrent : F32
  internalEnable : Bool
  externalEnable : Bool
  outputEnabled : Bool
  warnLampTestState : Bool
  lastWarnBlinkTimeMs : ℕ
  warnLampOn : Bool
  ExampleOut : Bool
deriving DecidableEq

/-- The initialisers of `PowerState.cpp`: every field starts at zero / false. -/
def PowerState.reset : PowerState where
  setVoltage := .fin 0
  setCurrent := .fin 0
  probeVoltageOutput := .fin 0
  probeCurrent := .fin 0
  internalEnable := false
  externalEnable := false
  outputEnabled := false
  warnLampTestState := false
  lastWarnBlinkTimeMs := 0
  warnLampOn := false
  ExampleOut := false

/-! ## Command handlers (`init_serial_comms`, the lambdas bound to the RPC names)

Each handler is a function from the state before the call and the argument to the state
after the call and the value returned to the caller. -/

/-- Handler bound to `"set_volt"`: `(val < 0) ? 0.0f : val`. -/
def set_volt (ps : PowerState) (val : F32) : PowerState × Bool :=
  ({ ps with setVoltage := if val < .fin 0 then .fin 0 else val }, true)

/-- Handler bound to `"set_curr"`: `(val < 0) ? 0.0f : val`. -/
def set_curr (ps : PowerState) (val : F32) : PowerState × Bool :=
  ({ ps with setCurrent := if val < .fin 0 then .fin 0 else val }, true)

/-- Handler bound to `"set_internal_enable"`. -/
def set_internal_enable (ps : PowerState) (enable : Bool) : PowerState × Bool :=
  ({ ps with internalEnable := enable }, true)

/-- Handler bound to `"set_warn_lamp_test"`. -/
def set_warn_lamp_test (ps : PowerState) (test_active : Bool) : PowerState × Bool :=
  ({ ps with warnLampTestState := test_active }, true)

/-- Handler bound to `"set_example_out"`. -/
def set_example_out (ps : PowerState) (out_active : Bool) : PowerState × Bool :=
  ({ ps with ExampleOut := out_active }, true)

/-! ## Numeric conversions used by the packer -/

/-- The conversion `(int32_t)` applied to an integer value: the low 32 bits, read as a
two's-complement number.  On the value of a `long` of the target, which already lies in
`[-2^31, 2^31)`, it changes nothing. -/
def to_int32 (z : ℤ) : ℤ :=
  (z + 2 ^ 31) % 2 ^ 32 - 2 ^ 31

/-- The conversion `(uint32_t)` applied to an integer value. -/
def to_uint32 (z : ℤ) : ℕ :=
  (z % 2 ^ 32).toNat

/-- Source function `clamp_s`. -/
def clamp_s (x lo hi : ℤ) : ℤ :=
  if x < lo then lo else (if x > hi then hi else x)

/-- Source function `mask_nbits`: `(uint64_t)((uint32_t)x & ((1u << n) - 1u))`. -/
def mask_nbits (x : ℤ) (n : ℕ) : ℕ :=
  to_uint32 x &&& (((1 <<< n) % 2 ^ 32 + 2 ^ 32 - 1) % 2 ^ 32)

/-! ## Telemetry packer (`get_poll_data`) -/

/-- Source constant `max_val = (1 << 19) - 1`. -/
def max_val : ℤ := ((1 <<< 19 : ℕ) : ℤ) - 1

/-- Source constant `min_val = -(1 << 19)`. -/
def min_val : ℤ := -((1 <<< 19 : ℕ) : ℤ)

/-- Source function `get_poll_data`.  The static toggle `send_packet_zero` is an argument;
the function returns the packed word together with the toggle left for the next call.  The
products `x * 100.0f` are binary32 products. -/
def get_poll_data (ps : PowerState) (send_packet_zero : Bool) : ℕ × Bool :=
  let word : ℕ := 0
  let word : ℕ :=
    if send_packet_zero then
      let flags : ℕ := if ps.externalEnable then 1 else 0
      let v100 : ℤ :=
        clamp_s (to_int32 (lroundf (F32.mul ps.probeVoltageOutput (.fin 100)))) min_val max_val
      let c100 : ℤ :=
        clamp_s (to_int32 (lroundf (F32.mul ps.probeCurrent (.fin 100)))) min_val max_val
      let word := word ||| ((flags &&& 0x1F) <<< 58) % 2 ^ 64
      let word := word ||| (mask_nbits v100 20 <<< 38) % 2 ^ 64
      let word := word ||| (mask_nbits c100 20 <<< 18) % 2 ^ 64
      word
    else
      let s100 : ℤ :=
        clamp_s (to_int32 (lroundf (F32.mul ps.setCurrent (.fin 100)))) min_val max_val
      let t100 : ℤ :=
        clamp_s (to_int32 (lroundf (F32.mul (.fin 25) (.fin 100)))) min_val max_val
      let word := word ||| (1 <<< 63) % 2 ^ 64
      let word := word ||| (mask_nbits s100 20 <<< 43) % 2 ^ 64
      let word := word ||| (mask_nbits t100 20 <<< 23) % 2 ^ 64
      word
  (word, !send_packet_zero)

/-! ## Host sessions: commands, control-loop writes and polls interleaved -/

/-- One call of a command handler, with its argument. -/
inductive Command where
  | set_volt (val : F32)
  | set_curr (val : F32)
  | set_internal_enable (enable : Bool)
  | set_warn_lamp_test (test_active : Bool)
  | set_example_out (out_active : Bool)

/-- Run the handler a command names. -/
def Command.run (ps : PowerState) : Command → PowerState × Bool
  | .set_volt val => Firmware.set_volt ps val
  | .set_curr val => Firmware.set_curr ps val
  | .set_internal_enable enable => Firmware.set_internal_enable ps enable
  | .set_warn_lamp_test test_active => Firmware.set_warn_lamp_test ps test_active
  | .set_example_out out_active => Firmware.set_example_out ps out_active

/-- The power state after a sequence of command-handler calls. -/
def run_commands (ps : PowerState) : List Command → PowerState
  | [] => ps
  | c :: cs => run_commands (c.run ps).1 cs

/-- What can happen between and at polls: a command handler runs, the control loop (or any
other writer) replaces the contents of the power state, or the host calls `get_poll_data`. -/
inductive Event where
  | command (c : Command)
  | control (ps : PowerState)
  | poll

/-- Whether an event is a call of `get_poll_data`. -/
def Event.isPoll : Event → Bool
  | .poll => true
  | _ => false

/-- The firmware state a session acts on: the power state and the static toggle of
`get_poll_data`. -/
structure Session where
  ps : PowerState
  send_packet_zero : Bool

/-- The words returned by the calls of `get_poll_data` in a sequence of events, in call
order. -/
def poll_trace (s : Session) : List Event → List ℕ
  | [] => []
  | .command c :: es => poll_trace { s with ps := (c.run s.ps).1 } es
  | .control ps :: es => poll_trace { s with ps := ps } es
  | .poll :: es =>
    (get_poll_data s.ps s.send_packet_zero).1 ::
      poll_trace { s with send_packet_zero := (get_poll_data s.ps s.send_packet_zero).2 } es

/-! ## PWM carrier generator (`Current.cpp`) -/

/-- The conversion `(uint32_t)` applied to a `double` holding a non-negative value below
`2^32`, as in the computation of `total_period_ticks`: the fraction is discarded. -/
def float_to_uint32 (x : ℚ) : ℕ :=
  to_uint32 (if 0 ≤ x then ⌊x⌋ else ⌈x⌉)

/-- Source function `duty_to_ccr`.  The argument `arr` is the auto-reload value the function
reads from the timer handle with `__HAL_TIM_GET_AUTORELOAD(&s_tim1)`; product and sum are
binary32 operations. -/
def duty_to_ccr (arr : ℕ) (duty_norm : F32) : ℕ :=
  if duty_norm ≤ .fin 0 then 0
  else
    let dn : F32 := if duty_norm ≥ .fin 1 then .fin 1 else duty_norm
    let ccr : ℕ :=
      f32_to_uint32
        (F32.add (F32.mul dn (F32.of_int (((arr + 1) % 2 ^ 32 : ℕ) : ℤ))) (.fin (1 / 2)))
    if ccr > arr then arr else ccr

/-- The prescaler search loop of `ensure_tim1_10khz_pwm`, entered with the current value of
`psc`: `some (psc, arr)` when the loop leaves through `break`, `none` when it leaves through
`return`.  The unsigned subtraction `- 1U` is the integer difference reduced to 32 bits, so
it wraps to `2^32 - 1` when the quotient is `0`; `psc` never exceeds `65536`, so `psc + 1U` and
`++psc` cannot wrap. -/
def prescaler_loop (total_period_ticks psc : ℕ) : Option (ℕ × ℕ) :=
  let arr := to_uint32 (((total_period_ticks / (psc + 1) : ℕ) : ℤ) - 1)
  if arr ≤ 65535 then some (psc, arr)
  else if psc + 1 > 65535 then none
  else prescaler_loop total_period_ticks (psc + 1)
termination_by 65536 - psc

/-- The prescaler search of `ensure_tim1_10khz_pwm` as it is run: `psc` starts at `0`. -/
def prescaler_search (total_period_ticks : ℕ) : Option (ℕ × ℕ) :=
  prescaler_loop total_period_ticks 0

/-- The loop of `prescaler_loop` run for at most `fuel` iterations: the outer `none` means
that the iterations allowed were used up before the loop left through `break` or `return`. -/
def prescaler_loop_bounded (total_period_ticks : ℕ) : ℕ → ℕ → Option (Option (ℕ × ℕ))
  | 0, _ => none
  | fuel + 1, psc =>
    let arr := to_uint32 (((total_period_ticks / (psc + 1) : ℕ) : ℤ) - 1)
    if arr ≤ 65535 then some (some (psc, arr))
    else if psc + 1 > 65535 then some none
    else prescaler_loop_bounded total_period_ticks fuel (psc + 1)

/-- Counting modes of the timer (`TIM_COUNTERMODE_*`); `up` is the zero value. -/
inductive CounterMode where
  | up
  | down
  | centeraligned1
  | centeraligned2
  | centeraligned3
deriving DecidableEq

/-- Clock division of the timer (`TIM_CLOCKDIVISION_*`); `div1` is the zero value. -/
inductive ClockDivision where
  | div1
  | div2
  | div4
deriving DecidableEq

/-- The fields of `s_tim1.Init` that `ensure_tim1_10khz_pwm` assigns. -/
structure TIM_Base_InitTypeDef where
  Prescaler : ℕ
  CounterMode : CounterMode
  Period : ℕ
  ClockDivision : ClockDivision
  RepetitionCounter : ℕ
  AutoReloadPreload : Bool
deriving DecidableEq

/-- The timer handle `s_tim1` together with the registers of the TIM1 instance it points to:
`ARR` is read by `__HAL_TIM_GET_AUTORELOAD`, `CCR2` / `CCR3` are the compare registers of
channels 2 and 3, written by `__HAL_TIM_SET_COMPARE`. -/
structure TIM_HandleTypeDef where
  Init : TIM_Base_InitTypeDef
  PSC : ℕ
  ARR : ℕ
  CCR2 : ℕ
  CCR3 : ℕ
deriving DecidableEq

/-- The initialiser `s_tim1 = {}`: every field zero. -/
def TIM_HandleTypeDef.zero : TIM_HandleTypeDef where
  Init :=
    { Prescaler := 0, CounterMode := .up, Period := 0, ClockDivision := .div1,
      RepetitionCounter := 0, AutoReloadPreload := false }
  PSC := 0
  ARR := 0
  CCR2 := 0
  CCR3 := 0

/-- The two PWM channels used (`TIM_CHANNEL_2`, `TIM_CHANNEL_3`). -/
inductive Channel where
  | ch2
  | ch3
deriving DecidableEq

/-- The vendor HAL calls made by `ensure_tim1_10khz_pwm`, taken as parameters: each call gets
the handle (and the pulse and channel it is given) and returns whether it reported `HAL_OK`
together with the handle it leaves behind. -/
structure Hal where
  HAL_TIM_PWM_Init : TIM_HandleTypeDef → Bool × TIM_HandleTypeDef
  HAL_TIM_PWM_ConfigChannel : TIM_HandleTypeDef → ℕ → Channel → Bool × TIM_HandleTypeDef
  HAL_TIM_PWM_Start : TIM_HandleTypeDef → Channel → Bool × TIM_HandleTypeDef

/-- The static timer state of `Current.cpp`: `s_tim1` and `s_tim1_inited`. -/
structure Tim1State where
  s_tim1 : TIM_HandleTypeDef
  s_tim1_inited : Bool
deriving DecidableEq

/-- The initialisers `s_tim1 = {}` and `s_tim1_inited = false`. -/
def Tim1State.reset : Tim1State where
  s_tim1 := TIM_HandleTypeDef.zero
  s_tim1_inited := false

/-- Source constant `timer_clock_hz`. -/
def timer_clock_hz : ℕ := 200000000

/-- Source constant `f_pwm`. -/
def f_pwm : ℚ := 10000

/-- Source variable `total_period_ticks`:
`(uint32_t)((double)timer_clock_hz / (2.0 * f_pwm))`.  The computation is done in `double`,
where the three values and the quotient are exact. -/
def total_period_ticks : ℕ :=
  float_to_uint32 ((timer_clock_hz : ℚ) / (2 * f_pwm))

/-- The assignments to `s_tim1.Init` that follow the prescaler search. -/
def tim1_configure (psc arr : ℕ) (h : TIM_HandleTypeDef) : TIM_HandleTypeDef :=
  { h with
    Init :=
      { Prescaler := psc, CounterMode := .centeraligned1, Period := arr,
        ClockDivision := .div1, RepetitionCounter := 0, AutoReloadPreload := false } }

/-- The body of `ensure_tim1_10khz_pwm` from the prescaler search on, for a given value of
`total_period_ticks`: every `return` before the last line leaves `s_tim1_inited` as it was.
The clock enables and the pin set-up before it act on other peripherals and are left out. -/
def ensure_tim1_from (total : ℕ) (hal : Hal) (t : Tim1State) : Tim1State :=
  match prescaler_search total with
  | none => t
  | some (psc, arr) =>
    let r1 := hal.HAL_TIM_PWM_Init (tim1_configure psc arr t.s_tim1)
    if !r1.1 then { t with s_tim1 := r1.2 }
    else
      let r2 := hal.HAL_TIM_PWM_ConfigChannel r1.2 0 .ch2
      if !r2.1 then { t with s_tim1 := r2.2 }
      else
        let r3 := hal.HAL_TIM_PWM_ConfigChannel r2.2 0 .ch3
        if !r3.1 then { t with s_tim1 := r3.2 }
        else
          let r4 := hal.HAL_TIM_PWM_Start r3.2 .ch2
          if !r4.1 then { t with s_tim1 := r4.2 }
          else
            let r5 := hal.HAL_TIM_PWM_Start r4.2 .ch3
            if !r5.1 then { t with s_tim1 := r5.2 }
            else { s_tim1 := r5.2, s_tim1_inited := true }

/-- Source function `ensure_tim1_10khz_pwm`. -/
def ensure_tim1_10khz_pwm (hal : Hal) (t : Tim1State) : Tim1State :=
  if t.s_tim1_inited then t else ensure_tim1_from total_period_ticks hal t

/-- Whether all five HAL calls of `ensure_tim1_10khz_pwm`, each made on the handle the call
before it left, report `HAL_OK`, starting from the configured handle `h`. -/
def hal_steps_ok (hal : Hal) (h : TIM_HandleTypeDef) : Bool :=
  let r1 := hal.HAL_TIM_PWM_Init h
  let r2 := hal.HAL_TIM_PWM_ConfigChannel r1.2 0 .ch2
  let r3 := hal.HAL_TIM_PWM_ConfigChannel r2.2 0 .ch3
  let r4 := hal.HAL_TIM_PWM_Start r3.2 .ch2
  let r5 := hal.HAL_TIM_PWM_Start r4.2 .ch3
  r1.1 && r2.1 && r3.1 && r4.1 && r5.1

/-- A HAL in which every call reports `HAL_OK`: the base initialisation loads the prescaler
and auto-reload registers from `Init`, configuring a channel loads its compare register with
the pulse, starting a channel changes no register modelled here. -/
def hal_nominal : Hal where
  HAL_TIM_PWM_Init := fun h => (true, { h with PSC := h.Init.Prescaler, ARR := h.Init.Period })
  HAL_TIM_PWM_ConfigChannel := fun h pulse ch =>
    match ch with
    | .ch2 => (true, { h with CCR2 := pulse })
    | .ch3 => (true, { h with CCR3 := pulse })
  HAL_TIM_PWM_Start := fun h _ => (true, h)

/-- A HAL whose base initialisation is rejected. -/
def hal_rejecting : Hal where
  HAL_TIM_PWM_Init := fun h => (false, h)
  HAL_TIM_PWM_ConfigChannel := fun h _ _ => (true, h)
  HAL_TIM_PWM_Start := fun h _ => (true, h)

/-! ## Current signal conditioner (`Current.cpp`, `Config.cpp`) -/

/-- The calibration globals of the current channel. -/
structure Calibration where
  VScale_C : F32
  VOffset_C : F32

/-- The values `Config.cpp` gives the calibration globals. -/
def Calibration.config : Calibration where
  VScale_C := .fin 1
  VOffset_C := .fin 0

/-- All state `update_current` reads or writes: the shared power state, the two filter statics
and the timer statics. -/
structure CurrentState where
  ps : PowerState
  filtered_probe_current : F32
  current_filter_initialized : Bool
  tim : Tim1State

/-- The state after reset: the initialisers of `PowerState.cpp` and `Current.cpp`. -/
def CurrentState.reset : CurrentState where
  ps := PowerState.reset
  filtered_probe_current := .fin 0
  current_filter_initialized := false
  tim := Tim1State.reset

/-- Source variable `sample_current` of `update_current`, from the raw ADC reading:
`vin = ((float)raw_adc / 4095.0f) * 3.3f`, then `(vin - 1.65f) * VScale_C + VOffset_C`, every
operation in binary32. -/
def sample_current (cal : Calibration) (raw_adc : ℤ) : F32 :=
  let vin : F32 := F32.mul (F32.div (F32.of_int raw_adc) (.fin 4095)) (F32.lit 3.3)
  F32.add (F32.mul (F32.sub vin (F32.lit 1.65)) cal.VScale_C) cal.VOffset_C

/-- Source variable `duty_norm` of `update_current` as it is passed to `duty_to_ccr`: the
scaled reading followed by the two clamping statements. -/
def gauge_duty (probeCurrent : F32) : F32 :=
  let duty_norm : F32 := F32.div (F32.add probeCurrent (.fin 4250)) (.fin 8500)
  let duty_norm : F32 := if duty_norm < .fin 0 then .fin 0 else duty_norm
  let duty_norm : F32 := if duty_norm > .fin 1 then .fin 1 else duty_norm
  duty_norm

/-- The filter step `(0.9f * filtered) + (0.1f * sample)` of `update_current`. -/
def filter_step (filtered sample : F32) : F32 :=
  F32.add (F32.mul (F32.lit 0.9) filtered) (F32.mul (F32.lit 0.1) sample)

/-- Source function `update_current`; `raw_adc` is the value returned by the analog reader. -/
def update_current (cal : Calibration) (raw_adc : ℤ) (st : CurrentState) : CurrentState :=
  let sample : F32 := sample_current cal raw_adc
  let filtered : F32 :=
    if !st.current_filter_initialized then sample
    else filter_step st.filtered_probe_current sample
  let st1 : CurrentState :=
    { st with
      filtered_probe_current := filtered
      current_filter_initialized := true
      ps := { st.ps with probeCurrent := filtered } }
  if !st1.tim.s_tim1_inited then st1
  else
    let duty_norm : F32 := gauge_duty st1.ps.probeCurrent
    { st1 with
      tim :=
        { st1.tim with
          s_tim1 :=
            { st1.tim.s_tim1 with CCR3 := duty_to_ccr st1.tim.s_tim1.ARR duty_norm } } }

/-- Source function `init_current`, as far as it touches the state modelled: the call of
`ensure_tim1_10khz_pwm`. -/
def init_current (hal : Hal) (st : CurrentState) : CurrentState :=
  { st with tim := ensure_tim1_10khz_pwm hal st.tim }

/-- Rounding to five decimal places. -/
def round5 (x : ℚ) : ℚ :=
  (round (x * 100000) : ℚ) / 100000

/-! ## Reading a packed word (receiver side, from the bit-layout table of the specification) -/

/-- Bits `[hi:lo]` of a word, as a number. -/
def bits (w hi lo : ℕ) : ℕ :=
  (w >>> lo) % 2 ^ (hi + 1 - lo)

/-- The 20-bit two's-complement encoding of an integer. -/
def enc20 (z : ℤ) : ℕ :=
  (z % 2 ^ 20).toNat

/-- Sign extension of a 20-bit field. -/
def sign_extend20 (f : ℕ) : ℤ :=
  if f < 2 ^ 19 then (f : ℤ) else (f : ℤ) - 2 ^ 20

/-- The binary32 product `x * 100.0f` the packer scales a measurement or setpoint with. -/
def times100 (x : F32) : F32 :=
  F32.mul x (.fin 100)

/-- The scaled, rounded value of a measurement or setpoint as the packer obtains it:
`lroundf(x * 100.0f)`.  For a finite product within the range of `long` it is the product
rounded to the nearest integer. -/
def scaled100 (x : F32) : ℤ :=
  lroundf (times100 x)

/-- Clamping an integer to the 20-bit signed range `[-2^19, 2^19 - 1]`. -/
def clamp20 (z : ℤ) : ℤ :=
  max (-2 ^ 19) (min z (2 ^ 19 - 1))

/-- Clamping a rational to an interval. -/
def clampQ (x lo hi : ℚ) : ℚ :=
  max lo (min x hi)

/-! ## Concrete states used in worked examples -/

/-- The packing example of the specification: 12.34 V, -56.78 A, external enable set; the
two measurements are the binary32 numbers nearest to the decimals. -/
def example_packing : PowerState :=
  { PowerState.reset with
    probeVoltageOutput := F32.lit 12.34
    probeCurrent := F32.neg (F32.lit 56.78)
    externalEnable := true }

/-- The state reached from reset by the command `set_curr(1.005f)`. -/
def example_setpoint : PowerState :=
  (set_curr PowerState.reset (F32.lit 1.005)).1

/-- The state reached from reset by the command `set_curr(30000000.0f)`: the scaled setpoint
no longer fits 32 bits. -/
def overrange_setpoint : PowerState :=
  (set_curr PowerState.reset (.fin 30000000)).1

/-- The state reached from reset by the command `set_volt(NaN)`. -/
def nan_setpoint : PowerState :=
  (set_volt PowerState.reset .nan).1

/-- The conditioner state after reset and one full-scale reading (raw code 4095). -/
def example_seeded : CurrentState :=
  update_current Calibration.config 4095 CurrentState.reset

/-- The conditioner state after reset once the timer has been brought up by a HAL that
accepts every call. -/
def example_timer_ready : CurrentState :=
  init_current hal_nominal CurrentState.reset

/-! ## Vocabulary of the specification -/

/-- The three scaled quantities carried by the telemetry words. -/
inductive Field where
  | voltage
  | current
  | setpoint
deriving DecidableEq

/-- The value of the power state a field is computed from. -/
def Field.value (ps : PowerState) : Field → F32
  | .voltage => ps.probeVoltageOutput
  | .current => ps.probeCurrent
  | .setpoint => ps.setCurrent

/-- Receiver side: the 20-bit field read from the word `get_poll_data` returns for the packet
that carries it (bits[57:38] and bits[37:18] of packet 0, bits[62:43] of packet 1),
sign-extended. -/
def Field.decode (ps : PowerState) : Field → ℤ
  | .voltage => sign_extend20 (bits (get_poll_data ps true).1 57 38)
  | .current => sign_extend20 (bits (get_poll_data ps true).1 37 18)
  | .setpoint => sign_extend20 (bits (get_poll_data ps false).1 62 43)

/-- The larger of a float and zero, as `fmaxf(v, 0.0f)` returns it (zero for NaN). -/
def F32.max0 : F32 → F32
  | .fin q => .fin (max q 0)
  | .pinf => .pinf
  | .ninf => .fin 0
  | .nan => .fin 0

/-- A command carries a NaN argument. -/
def Command.has_nan : Command → Bool
  | .set_volt val => decide (val = .nan)
  | .set_curr val => decide (val = .nan)
  | _ => false

/-- The compare value the specification describes: `round(clamp(d, 0, 1) * (arr + 1))`
clamped to `[0, arr]`, computed exactly. -/
def ccr_ideal (arr : ℕ) (d : ℚ) : ℤ :=
  max 0 (min (round (clampQ d 0 1 * ((arr : ℚ) + 1))) (arr : ℤ))

/-- The conversion the specification describes for a raw code, computed exactly with the
decimal constants: `((a / 4095) * 3.3 - 1.65) * k + b`. -/
def sample_ideal (k b : ℚ) (a : ℤ) : ℚ :=
  ((a : ℚ) / 4095 * 3.3 - 1.65) * k + b

/-- Clamping a float to `[0, 1]`; NaN stays NaN. -/
def F32.clamp01 : F32 → F32
  | .fin q => .fin (clampQ q 0 1)
  | .pinf => .fin 1
  | .ninf => .fin 0
  | .nan => .nan

/-! # Properties -/

/-! ## Binary32 rounding: nearest integer -/

theorem rhe_cases (x : ℚ) :
    (|x - rhe x| < 1 / 2) ∨ (|x - rhe x| = 1 / 2 ∧ rhe x % 2 = 0) := by
  have h1 := Int.floor_le x
  have h2 := Int.lt_floor_add_one x
  unfold rhe
  split_ifs with a b c
  · left
    rw [abs_lt]; constructor <;> linarith
  · left
    push_cast
    rw [abs_lt]; constructor <;> linarith
  · right
    have e : x - ⌊x⌋ = 1 / 2 := le_antisymm (not_lt.mp b) (not_lt.mp a)
    exact ⟨by rw [e]; norm_num, c⟩
  · right
    have e : x - ⌊x⌋ = 1 / 2 := le_antisymm (not_lt.mp b) (not_lt.mp a)
    refine ⟨?_, by omega⟩
    push_cast
    have : x - (⌊x⌋ + 1) = -(1 / 2) := by linarith
    rw [this]; norm_num

theorem rhe_unique (x : ℚ) (n : ℤ)
    (h : (|x - n| < 1 / 2) ∨ (|x - n| = 1 / 2 ∧ n % 2 = 0)) : rhe x = n := by
  have hc := rhe_cases x
  by_contra hne
  have hd : (1 : ℚ) ≤ |(rhe x : ℚ) - n| := by
    have : (1 : ℤ) ≤ |rhe x - n| := Int.one_le_abs (sub_ne_zero.mpr hne)
    exact_mod_cast this
  have htri : |(rhe x : ℚ) - n| ≤ |x - rhe x| + |x - n| := by
    have := abs_sub_le (rhe x : ℚ) x n
    rw [abs_sub_comm (rhe x : ℚ) x] at this
    exact this
  rcases hc with hc | ⟨hc, hce⟩ <;> rcases h with h | ⟨h, he⟩
  · linarith
  · linarith
  · linarith
  · -- both at distance exactly one half: the two integers differ by one, both even
    have hx1 : |(rhe x : ℚ) - n| ≤ 1 := by linarith
    have : |rhe x - n| ≤ 1 := by exact_mod_cast hx1
    have h1 : (1 : ℤ) ≤ |rhe x - n| := Int.one_le_abs (sub_ne_zero.mpr hne)
    have h2 : |rhe x - n| = 1 := le_antisymm this h1
    rcases abs_eq (by norm_num : (0:ℤ) ≤ 1) |>.mp h2 with h3 | h3 <;> omega

theorem rhe_intCast (n : ℤ) : rhe (n : ℚ) = n :=
  rhe_unique _ n (Or.inl (by simp))

theorem rhe_neg (x : ℚ) : rhe (-x) = -rhe x := by
  apply rhe_unique
  rcases rhe_cases x with h | ⟨h, he⟩
  · left
    push_cast
    rw [show -x - -(rhe x : ℚ) = -(x - rhe x) by ring, abs_neg]
    exact h
  · right
    push_cast
    rw [show -x - -(rhe x : ℚ) = -(x - rhe x) by ring, abs_neg]
    exact ⟨h, by omega⟩

theorem rhe_err (x : ℚ) : |x - rhe x| ≤ 1 / 2 := by
  rcases rhe_cases x with h | ⟨h, -⟩
  · exact h.le
  · exact h.le

theorem rhe_mono {x y : ℚ} (h : x ≤ y) : rhe x ≤ rhe y := by
  by_contra hlt
  push_neg at hlt
  have h1 : (rhe y : ℚ) + 1 ≤ rhe x := by exact_mod_cast hlt
  have ex := abs_le.mp (rhe_err x)
  have ey := abs_le.mp (rhe_err y)
  have hxy : x = y := by linarith
  rw [hxy] at hlt
  exact lt_irrefl _ hlt

theorem rhe_of_close (x : ℚ) (n : ℤ) (h : |x - n| < 1 / 2) : rhe x = n :=
  rhe_unique x n (Or.inl h)

/-! ## Binary32 rounding: exponent and spacing -/

theorem binade_ge (q : ℚ) : -126 ≤ binade q := by
  unfold binade
  split_ifs
  · exact le_refl _
  · exact le_max_right _ _

theorem binade_neg (q : ℚ) : binade (-q) = binade q := by
  unfold binade
  simp [abs_neg]

theorem ulp_neg (q : ℚ) : ulp (-q) = ulp q := by
  unfold ulp
  rw [binade_neg]

theorem ulp_pos (q : ℚ) : 0 < ulp q := by
  unfold ulp
  positivity

theorem abs_lt_pow_binade (q : ℚ) : |q| < 2 ^ (binade q + 1) := by
  unfold binade
  split_ifs with h
  · rw [h, abs_zero]
    positivity
  · have h1 := Int.lt_zpow_succ_log_self (b := 2) (by norm_num) |q|
    refine lt_of_lt_of_le h1 ?_
    push_cast
    apply zpow_le_zpow_right₀ (by norm_num)
    have := le_max_left (Int.log 2 |q|) (-126)
    omega

theorem pow_binade_le (q : ℚ) (h : -126 < binade q) : 2 ^ binade q ≤ |q| := by
  unfold binade at h ⊢
  split_ifs at h ⊢ with h0
  · omega
  · have hlog : max (Int.log 2 |q|) (-126) = Int.log 2 |q| := by
      rcases max_cases (Int.log 2 |q|) (-126) with ⟨h1, _⟩ | ⟨h1, _⟩
      · exact h1
      · omega
    rw [hlog]
    have := Int.zpow_log_le_self (b := 2) (by norm_num) (abs_pos.mpr h0)
    exact_mod_cast this

theorem binade_le_of_lt (q : ℚ) (E : ℤ) (h : |q| < 2 ^ (E + 1)) (hE : -126 ≤ E) :
    binade q ≤ E := by
  unfold binade
  split_ifs with h0
  · exact hE
  · apply max_le _ hE
    have := (Int.lt_zpow_iff_log_lt (b := 2) (by norm_num) (abs_pos.mpr h0)).mp
      (show |q| < ((2 : ℕ) : ℚ) ^ (E + 1) by exact_mod_cast h)
    omega

theorem le_binade_of_le (q : ℚ) (e : ℤ) (h : 2 ^ e ≤ |q|) : e ≤ binade q := by
  have h0 : q ≠ 0 := by
    intro h0
    rw [h0, abs_zero] at h
    have : (0 : ℚ) < 2 ^ e := by positivity
    linarith
  unfold binade
  rw [if_neg h0]
  apply le_max_of_le_left
  exact (Int.zpow_le_iff_le_log (b := 2) (by norm_num) (abs_pos.mpr h0)).mp
    (show ((2 : ℕ) : ℚ) ^ e ≤ |q| by exact_mod_cast h)

theorem binade_eq (q : ℚ) (e : ℤ) (h1 : 2 ^ e ≤ |q|) (h2 : |q| < 2 ^ (e + 1))
    (he : -126 ≤ e) : binade q = e :=
  le_antisymm (binade_le_of_lt q e h2 he) (le_binade_of_le q e h1)

theorem binade_mono {p q : ℚ} (h : |p| ≤ |q|) : binade p ≤ binade q := by
  by_cases hb : -126 < binade p
  · exact le_binade_of_le q _ (le_trans (pow_binade_le p hb) h)
  · have := binade_ge p
    have : binade p = -126 := by omega
    rw [this]
    exact binade_ge q

theorem pow_split (e : ℤ) :
    (2 : ℚ) ^ (e + 1) = 16777216 * 2 ^ (e - 23) ∧ (2 : ℚ) ^ e = 8388608 * 2 ^ (e - 23) := by
  have h1 : (2 : ℚ) ^ (e + 1) = 2 ^ (24 : ℤ) * 2 ^ (e - 23) := by
    rw [← zpow_add₀ (by norm_num : (2 : ℚ) ≠ 0)]
    congr 1
    ring
  have h2 : (2 : ℚ) ^ e = 2 ^ (23 : ℤ) * 2 ^ (e - 23) := by
    rw [← zpow_add₀ (by norm_num : (2 : ℚ) ≠ 0)]
    congr 1
    ring
  rw [h1, h2]
  norm_num

/-! ## Binary32 rounding: error, sign and monotonicity -/

theorem rv_neg (q : ℚ) : rv (-q) = -rv q := by
  unfold rv
  rw [ulp_neg, neg_div, rhe_neg]
  push_cast
  ring

theorem rv_zero : rv 0 = 0 := by
  unfold rv
  rw [zero_div]
  have : rhe 0 = 0 := by simpa using rhe_intCast 0
  rw [this]
  simp

theorem rv_err (q : ℚ) : |rv q - q| ≤ ulp q / 2 := by
  have hu := ulp_pos q
  have h := rhe_err (q / ulp q)
  unfold rv
  have e : (rhe (q / ulp q) : ℚ) * ulp q - q = -((q / ulp q - rhe (q / ulp q)) * ulp q) := by
    field_simp
    ring
  rw [e, abs_neg, abs_mul, abs_of_pos hu]
  calc |q / ulp q - ↑(rhe (q / ulp q))| * ulp q ≤ 1 / 2 * ulp q :=
        mul_le_mul_of_nonneg_right h hu.le
    _ = ulp q / 2 := by ring

theorem rv_le_pow (q : ℚ) (hq : 0 ≤ q) : rv q ≤ 2 ^ (binade q + 1) := by
  have hu := ulp_pos q
  have h1 := abs_lt_pow_binade q
  rw [abs_of_nonneg hq, (pow_split (binade q)).1] at h1
  rw [(pow_split (binade q)).1]
  unfold rv
  have hx : q / ulp q ≤ ((16777216 : ℤ) : ℚ) := by
    rw [div_le_iff₀ hu]
    push_cast
    exact h1.le
  have := rhe_mono hx
  rw [rhe_intCast] at this
  have hc : (rhe (q / ulp q) : ℚ) ≤ 16777216 := by exact_mod_cast this
  exact mul_le_mul_of_nonneg_right hc hu.le

theorem pow_le_rv (q : ℚ) (hq : 0 ≤ q) (hb : -126 < binade q) : 2 ^ binade q ≤ rv q := by
  have hu := ulp_pos q
  have h1 := pow_binade_le q hb
  rw [abs_of_nonneg hq, (pow_split (binade q)).2] at h1
  rw [(pow_split (binade q)).2]
  unfold rv
  have hx : ((8388608 : ℤ) : ℚ) ≤ q / ulp q := by
    rw [le_div_iff₀ hu]
    push_cast
    exact h1
  have := rhe_mono hx
  rw [rhe_intCast] at this
  have hc : (8388608 : ℚ) ≤ (rhe (q / ulp q) : ℚ) := by exact_mod_cast this
  exact mul_le_mul_of_nonneg_right hc hu.le

theorem rv_mono_nonneg {p q : ℚ} (hp : 0 ≤ p) (h : p ≤ q) : rv p ≤ rv q := by
  have hq : 0 ≤ q := le_trans hp h
  have hb : binade p ≤ binade q := binade_mono (by rwa [abs_of_nonneg hp, abs_of_nonneg hq])
  rcases eq_or_lt_of_le hb with he | hlt
  · have hu : ulp p = ulp q := by unfold ulp; rw [he]
    unfold rv
    rw [hu]
    have hx : p / ulp q ≤ q / ulp q := div_le_div_of_nonneg_right h (ulp_pos q).le
    have hc : (rhe (p / ulp q) : ℚ) ≤ (rhe (q / ulp q) : ℚ) := by exact_mod_cast rhe_mono hx
    exact mul_le_mul_of_nonneg_right hc (ulp_pos q).le
  · have h1 := rv_le_pow p hp
    have h2 := pow_le_rv q hq (by have := binade_ge p; omega)
    have h3 : (2 : ℚ) ^ (binade p + 1) ≤ 2 ^ binade q :=
      zpow_le_zpow_right₀ (by norm_num) (by omega)
    linarith

theorem rv_nonneg {q : ℚ} (hq : 0 ≤ q) : 0 ≤ rv q := by
  have := rv_mono_nonneg (le_refl 0) hq
  rwa [rv_zero] at this

theorem rv_nonpos {q : ℚ} (hq : q ≤ 0) : rv q ≤ 0 := by
  have := rv_nonneg (neg_nonneg.mpr hq)
  rw [rv_neg] at this
  linarith

theorem rv_mono {p q : ℚ} (h : p ≤ q) : rv p ≤ rv q := by
  rcases le_total 0 p with hp | hp
  · exact rv_mono_nonneg hp h
  · rcases le_total 0 q with hq | hq
    · exact le_trans (rv_nonpos hp) (rv_nonneg hq)
    · have := rv_mono_nonneg (neg_nonneg.mpr hq) (neg_le_neg h)
      rw [rv_neg, rv_neg] at this
      linarith

/-! ## Binary32 rounding: representable values and evaluation -/

theorem abs_cast_lt (k : ℤ) (hk : |k| < 2 ^ 24) : |(k : ℚ)| < 2 ^ (24 : ℤ) := by
  have h : ((|k| : ℤ) : ℚ) < ((2 ^ 24 : ℤ) : ℚ) := by exact_mod_cast hk
  rw [Int.cast_abs] at h
  have e : (((2 : ℤ) ^ 24 : ℤ) : ℚ) = 2 ^ (24 : ℤ) := by norm_num
  rwa [e] at h

theorem rv_of_grid (k j : ℤ) (hk : |k| < 2 ^ 24) (hj : -149 ≤ j) :
    rv ((k : ℚ) * 2 ^ j) = (k : ℚ) * 2 ^ j := by
  obtain ⟨b, hb⟩ : ∃ b, binade ((k : ℚ) * 2 ^ j) = b := ⟨_, rfl⟩
  have hjle : b - 23 ≤ j := by
    by_cases hlt : -126 < b
    · have h1 := pow_binade_le ((k : ℚ) * 2 ^ j) (by rw [hb]; exact hlt)
      rw [hb] at h1
      have h2 : |(k : ℚ) * 2 ^ j| < 2 ^ (24 + j) := by
        rw [abs_mul, abs_of_pos (by positivity : (0 : ℚ) < 2 ^ j),
          zpow_add₀ (by norm_num : (2 : ℚ) ≠ 0)]
        exact mul_lt_mul_of_pos_right (abs_cast_lt k hk) (by positivity)
      have h3 : (2 : ℚ) ^ b < 2 ^ (24 + j) := lt_of_le_of_lt h1 h2
      have := (zpow_lt_zpow_iff_right₀ (by norm_num : (1 : ℚ) < 2)).mp h3
      omega
    · have := binade_ge ((k : ℚ) * 2 ^ j)
      omega
  obtain ⟨n, hn⟩ : ∃ n : ℕ, j = b - 23 + n := ⟨(j - (b - 23)).toNat, by omega⟩
  have hu : (2 : ℚ) ^ (b - 23) ≠ 0 := by positivity
  have hpow : (2 : ℚ) ^ j = 2 ^ (b - 23) * 2 ^ n := by
    rw [hn, zpow_add₀ (by norm_num : (2 : ℚ) ≠ 0), zpow_natCast]
  have hdiv : (k : ℚ) * 2 ^ j / 2 ^ (b - 23) = ((k * 2 ^ n : ℤ) : ℚ) := by
    rw [hpow]
    field_simp
    ring
  unfold rv ulp
  rw [hb, hdiv, rhe_intCast, hpow]
  push_cast
  ring

theorem rv_of_representable (g : ℚ) (h : representable g) : rv g = g := by
  obtain ⟨k, j, hk, hj, -, rfl⟩ := h
  exact rv_of_grid k j hk hj

theorem representable_abs_lt (g : ℚ) (h : representable g) : |g| < 2 ^ 128 := by
  obtain ⟨k, j, hk, -, hj, rfl⟩ := h
  rw [abs_mul, abs_of_pos (by positivity : (0 : ℚ) < 2 ^ j)]
  have hkq : |(k : ℚ)| < 2 ^ (24 : ℤ) := abs_cast_lt k hk
  have h2 : (2 : ℚ) ^ j ≤ 2 ^ (104 : ℤ) := zpow_le_zpow_right₀ (by norm_num) hj
  calc |(k : ℚ)| * 2 ^ j < 2 ^ (24 : ℤ) * 2 ^ j := mul_lt_mul_of_pos_right hkq (by positivity)
    _ ≤ 2 ^ (24 : ℤ) * 2 ^ (104 : ℤ) := mul_le_mul_of_nonneg_left h2 (by positivity)
    _ = 2 ^ 128 := by norm_num

theorem rnd_of_representable (g : ℚ) (h : representable g) : rnd g = .fin g := by
  unfold rnd
  rw [rv_of_representable g h, if_pos (representable_abs_lt g h)]

theorem representable_int (n : ℤ) (h : |n| < 2 ^ 24) : representable (n : ℚ) :=
  ⟨n, 0, h, by norm_num, by norm_num, by simp⟩

theorem representable_half_int (n : ℤ) (h : |n| < 2 ^ 24) : representable ((n : ℚ) / 2) :=
  ⟨n, -1, h, by norm_num, by norm_num, by
    rw [zpow_neg, zpow_one]
    ring⟩

theorem rnd_eval (q : ℚ) (e m : ℤ) (hq : 0 < q) (h1 : 2 ^ e ≤ q) (h2 : q < 2 ^ (e + 1))
    (he : -126 ≤ e) (hm : rhe (q / 2 ^ (e - 23)) = m)
    (hov : (m : ℚ) * 2 ^ (e - 23) < 2 ^ 128) : rnd q = .fin ((m : ℚ) * 2 ^ (e - 23)) := by
  have hb : binade q = e := binade_eq q e (by rwa [abs_of_pos hq]) (by rwa [abs_of_pos hq]) he
  have hr : rv q = (m : ℚ) * 2 ^ (e - 23) := by
    unfold rv ulp
    rw [hb, hm]
  unfold rnd
  rw [hr]
  have h0 : 0 ≤ (m : ℚ) * 2 ^ (e - 23) := by
    rw [← hr]
    exact rv_nonneg hq.le
  rw [abs_of_nonneg h0, if_pos hov]

theorem rnd_eval_near (q : ℚ) (e m : ℤ) (hq : 0 < q) (h1 : 2 ^ e ≤ q) (h2 : q < 2 ^ (e + 1))
    (he : -126 ≤ e) (hlo : ((m : ℚ) - 1 / 2) * 2 ^ (e - 23) < q)
    (hhi : q < ((m : ℚ) + 1 / 2) * 2 ^ (e - 23))
    (hov : (m : ℚ) * 2 ^ (e - 23) < 2 ^ 128) : rnd q = .fin ((m : ℚ) * 2 ^ (e - 23)) := by
  apply rnd_eval q e m hq h1 h2 he _ hov
  apply rhe_of_close
  have hu : (0 : ℚ) < 2 ^ (e - 23) := by positivity
  rw [abs_lt]
  constructor
  · rw [lt_sub_iff_add_lt, lt_div_iff₀ hu]
    linarith
  · rw [sub_lt_iff_lt_add, div_lt_iff₀ hu]
    linarith

/-! ## Binary32 rounding: the rounded float -/

theorem rnd_cases (q : ℚ) :
    (rnd q = .fin (rv q) ∧ |rv q| < 2 ^ 128) ∨
    (rnd q = .pinf ∧ 0 < q ∧ 2 ^ 128 ≤ rv q) ∨
    (rnd q = .ninf ∧ q < 0 ∧ rv q ≤ -2 ^ 128) := by
  unfold rnd
  by_cases h : |rv q| < 2 ^ 128
  · left
    rw [if_pos h]
    exact ⟨rfl, h⟩
  · rw [if_neg h]
    have h2 : (2 : ℚ) ^ 128 ≤ |rv q| := not_lt.mp h
    by_cases hq : 0 < q
    · right; left
      rw [if_pos hq]
      refine ⟨rfl, hq, ?_⟩
      rwa [abs_of_nonneg (rv_nonneg hq.le)] at h2
    · right; right
      rw [if_neg hq]
      have hq0 : q ≤ 0 := not_lt.mp hq
      have hr := rv_nonpos hq0
      rw [abs_of_nonpos hr] at h2
      have hne : q ≠ 0 := by
        intro h0
        rw [h0, rv_zero] at h2
        norm_num at h2
      exact ⟨rfl, lt_of_le_of_ne hq0 hne, by linarith⟩

theorem rnd_ne_nan (q : ℚ) : rnd q ≠ .nan := by
  rcases rnd_cases q with ⟨h, -⟩ | ⟨h, -⟩ | ⟨h, -⟩ <;> rw [h] <;> exact F32.noConfusion

theorem rnd_mono {p q : ℚ} (h : p ≤ q) : rnd p ≤ rnd q := by
  have hm := rv_mono h
  rcases rnd_cases p with ⟨hp, hp1⟩ | ⟨hp, hp1, hp2⟩ | ⟨hp, hp1, hp2⟩ <;>
    rcases rnd_cases q with ⟨hq, hq1⟩ | ⟨hq, hq1, hq2⟩ | ⟨hq, hq1, hq2⟩ <;>
    rw [hp, hq] <;> simp only [LE.le, F32.le]
  · exact hm
  · have := abs_lt.mp hp1
    linarith
  · have := abs_lt.mp hq1
    linarith
  · linarith

theorem rnd_ge_of_representable {g q : ℚ} (hg : representable g) (h : g ≤ q) :
    F32.fin g ≤ rnd q := by
  have := rnd_mono h
  rwa [rnd_of_representable g hg] at this

theorem rnd_le_of_representable {g q : ℚ} (hg : representable g) (h : q ≤ g) :
    rnd q ≤ F32.fin g := by
  have := rnd_mono h
  rwa [rnd_of_representable g hg] at this

theorem rnd_of_int (n : ℤ) (h : |n| < 2 ^ 24) : rnd (n : ℚ) = .fin (n : ℚ) :=
  rnd_of_representable _ (representable_int n h)

theorem rnd_zero : rnd 0 = .fin 0 := by
  simpa using rnd_of_int 0 (by norm_num)

theorem f32_fin_le_fin {a b : ℚ} : F32.fin a ≤ F32.fin b ↔ a ≤ b := Iff.rfl

theorem f32_fin_lt_fin {a b : ℚ} : F32.fin a < F32.fin b ↔ a < b := Iff.rfl

theorem f32_le_trans {x y z : F32} (h1 : x ≤ y) (h2 : y ≤ z) : x ≤ z := by
  cases x <;> cases y <;> cases z <;> first
    | exact f32_fin_le_fin.mpr (le_trans (f32_fin_le_fin.mp h1) (f32_fin_le_fin.mp h2))
    | exact trivial
    | exact False.elim h1
    | exact False.elim h2

/-! ## Binary32 operations -/

theorem mul_fin_fin (a b : ℚ) : F32.mul (.fin a) (.fin b) = rnd (a * b) := rfl

theorem add_fin_fin (a b : ℚ) : F32.add (.fin a) (.fin b) = rnd (a + b) := rfl

theorem rnd_between {a b q : ℚ} (ha : F32.fin a ≤ rnd q) (hb : rnd q ≤ F32.fin b) :
    ∃ r : ℚ, rnd q = .fin r ∧ a ≤ r ∧ r ≤ b := by
  rcases rnd_cases q with ⟨e, -⟩ | ⟨e, -⟩ | ⟨e, -⟩
  · rw [e] at ha hb
    exact ⟨_, e, f32_fin_le_fin.mp ha, f32_fin_le_fin.mp hb⟩
  · rw [e] at hb; exact False.elim hb
  · rw [e] at ha; exact False.elim ha

theorem rnd_neg (q : ℚ) : rnd (-q) = F32.neg (rnd q) := by
  unfold rnd
  rw [rv_neg, abs_neg]
  by_cases h : |rv q| < 2 ^ 128
  · rw [if_pos h, if_pos h]; rfl
  · rw [if_neg h, if_neg h]
    rcases lt_trichotomy q 0 with hq | hq | hq
    · rw [if_pos (by linarith), if_neg (by linarith)]; rfl
    · exfalso; apply h; rw [hq, rv_zero]; norm_num
    · rw [if_neg (by linarith), if_pos hq]; rfl

theorem mul_neg_fin (x : F32) (b : ℚ) :
    F32.mul (F32.neg x) (.fin b) = F32.neg (F32.mul x (.fin b)) := by
  cases x with
  | fin a =>
    show rnd (-a * b) = F32.neg (rnd (a * b))
    rw [neg_mul, rnd_neg]
  | pinf =>
    show (if b = 0 then F32.nan else F32.signed_inf (-b))
      = F32.neg (if b = 0 then F32.nan else F32.signed_inf b)
    unfold F32.signed_inf
    by_cases hb : b = 0
    · rw [if_pos hb, if_pos hb]; rfl
    · rw [if_neg hb, if_neg hb]
      rcases lt_or_gt_of_ne hb with h | h
      · rw [if_pos (by linarith), if_neg (by linarith)]; rfl
      · rw [if_neg (by linarith), if_pos h]; rfl
  | ninf =>
    show (if b = 0 then F32.nan else F32.signed_inf b)
      = F32.neg (if b = 0 then F32.nan else F32.signed_inf (-b))
    unfold F32.signed_inf
    by_cases hb : b = 0
    · rw [if_pos hb, if_pos hb]; rfl
    · rw [if_neg hb, if_neg hb]
      rcases lt_or_gt_of_ne hb with h | h
      · rw [if_neg (by linarith), if_pos (by linarith)]; rfl
      · rw [if_pos h, if_neg (by linarith)]; rfl
  | nan => rfl

theorem sub_fin_fin (a b : ℚ) : F32.sub (.fin a) (.fin b) = rnd (a - b) := by
  show rnd (a + -b) = rnd (a - b)
  rw [sub_eq_add_neg]

theorem div_fin_fin (a b : ℚ) (hb : b ≠ 0) : F32.div (.fin a) (.fin b) = rnd (a / b) := by
  show (if b = 0 then (if a = 0 then F32.nan else F32.signed_inf a) else rnd (a / b)) = _
  rw [if_neg hb]

theorem rnd_le_pinf (q : ℚ) : rnd q ≤ .pinf := by
  rcases rnd_cases q with ⟨e, -⟩ | ⟨e, -⟩ | ⟨e, -⟩ <;> rw [e] <;> exact trivial

theorem ninf_le_rnd (q : ℚ) : F32.ninf ≤ rnd q := by
  rcases rnd_cases q with ⟨e, -⟩ | ⟨e, -⟩ | ⟨e, -⟩ <;> rw [e] <;> exact trivial

/-- Adding a finite constant preserves the order of floats. -/
theorem add_fin_mono {x y : F32} (b : ℚ) (h : x ≤ y) :
    F32.add x (.fin b) ≤ F32.add y (.fin b) := by
  cases x with
  | fin a =>
    cases y with
    | fin c =>
      rw [add_fin_fin, add_fin_fin]
      exact rnd_mono (by linarith [f32_fin_le_fin.mp h])
    | pinf => rw [add_fin_fin]; exact rnd_le_pinf _
    | ninf => exact False.elim h
    | nan => exact False.elim h
  | pinf =>
    cases y with
    | pinf => exact trivial
    | fin c => exact False.elim h
    | ninf => exact False.elim h
    | nan => exact False.elim h
  | ninf =>
    cases y with
    | fin c => rw [add_fin_fin]; exact ninf_le_rnd _
    | pinf => exact trivial
    | ninf => exact trivial
    | nan => exact False.elim h
  | nan => cases y <;> exact False.elim h

/-- Dividing by a positive finite constant preserves the order of floats. -/
theorem div_fin_mono {x y : F32} (c : ℚ) (hc : 0 < c) (h : x ≤ y) :
    F32.div x (.fin c) ≤ F32.div y (.fin c) := by
  have hp : F32.div .pinf (.fin c) = .pinf := by
    show (if 0 ≤ c then F32.pinf else F32.ninf) = F32.pinf
    rw [if_pos hc.le]
  have hn : F32.div .ninf (.fin c) = .ninf := by
    show (if 0 ≤ c then F32.ninf else F32.pinf) = F32.ninf
    rw [if_pos hc.le]
  cases x with
  | fin a =>
    cases y with
    | fin b =>
      rw [div_fin_fin _ _ hc.ne', div_fin_fin _ _ hc.ne']
      exact rnd_mono (div_le_div_of_nonneg_right (f32_fin_le_fin.mp h) hc.le)
    | pinf => rw [div_fin_fin _ _ hc.ne', hp]; exact rnd_le_pinf _
    | ninf => exact False.elim h
    | nan => exact False.elim h
  | pinf =>
    cases y with
    | pinf => rw [hp]; exact trivial
    | fin b => exact False.elim h
    | ninf => exact False.elim h
    | nan => exact False.elim h
  | ninf =>
    cases y with
    | fin b => rw [div_fin_fin _ _ hc.ne', hn]; exact ninf_le_rnd _
    | pinf => rw [hp, hn]; exact trivial
    | ninf => rw [hn]; exact trivial
    | nan => exact False.elim h
  | nan => cases y <;> exact False.elim h

theorem f32_not_lt_of_le {x y : F32} (h : x ≤ y) : ¬ (y < x) := by
  cases x <;> cases y <;> first
    | exact fun hlt => absurd (f32_fin_lt_fin.mp hlt) (not_lt.mpr (f32_fin_le_fin.mp h))
    | exact fun hlt => hlt
    | exact False.elim h

/-! ## Evaluating binary32 operations on given numbers -/

theorem rnd_zero_eq (q r : ℚ) (h : q = 0 ∧ r = 0) : rnd q = .fin r := by
  rw [h.1, h.2, rnd_zero]

/-- A number of the binary32 grid rounds to itself. -/
theorem rnd_exact (q r : ℚ) (k j : ℤ)
    (h : |k| < 2 ^ 24 ∧ -149 ≤ j ∧ j ≤ 104 ∧ q = (k : ℚ) * 2 ^ j ∧ r = q) : rnd q = .fin r := by
  obtain ⟨hk, hj, hj2, hq, hr⟩ := h
  rw [hr]
  exact rnd_of_representable q ⟨k, j, hk, hj, hj2, hq⟩

/-- A positive number in the binade `[2^e, 2^(e+1))` that lies strictly within half a unit of
the grid point `m * 2^(e-23)` rounds to that point. -/
theorem rnd_near (q r : ℚ) (e m : ℤ)
    (h : 0 < q ∧ 2 ^ e ≤ q ∧ q < 2 ^ (e + 1) ∧ -126 ≤ e ∧
      ((m : ℚ) - 1 / 2) * 2 ^ (e - 23) < q ∧ q < ((m : ℚ) + 1 / 2) * 2 ^ (e - 23) ∧
      (m : ℚ) * 2 ^ (e - 23) < 2 ^ 128 ∧ r = (m : ℚ) * 2 ^ (e - 23)) :
    rnd q = .fin r := by
  obtain ⟨hq, h1, h2, he, hlo, hhi, hov, hr⟩ := h
  rw [hr]
  exact rnd_eval_near q e m hq h1 h2 he hlo hhi hov

/-- The same for a negative number. -/
theorem rnd_near_neg (q r : ℚ) (e m : ℤ)
    (h : q < 0 ∧ 2 ^ e ≤ -q ∧ -q < 2 ^ (e + 1) ∧ -126 ≤ e ∧
      ((m : ℚ) - 1 / 2) * 2 ^ (e - 23) < -q ∧ -q < ((m : ℚ) + 1 / 2) * 2 ^ (e - 23) ∧
      (m : ℚ) * 2 ^ (e - 23) < 2 ^ 128 ∧ r = -((m : ℚ) * 2 ^ (e - 23))) :
    rnd q = .fin r := by
  obtain ⟨hq, h1, h2, he, hlo, hhi, hov, hr⟩ := h
  have h := rnd_eval_near (-q) e m (by linarith) h1 h2 he hlo hhi hov
  have e2 : rnd q = F32.neg (rnd (-q)) := by
    have := rnd_neg (-q)
    rwa [neg_neg] at this
  rw [e2, h, hr]
  rfl

theorem of_int_eq (n : ℤ) (q : ℚ) (h : (n : ℚ) = q ∧ |n| < 2 ^ 24) :
    F32.of_int n = .fin q := by
  rw [← h.1]
  exact rnd_of_int n h.2

/-- The error of one rounding: half a unit in the last place. -/
theorem rnd_err (q : ℚ) (E : ℤ) (h : |q| < 2 ^ (E + 1)) (hE : -126 ≤ E) (hE2 : E ≤ 126) :
    ∃ r : ℚ, rnd q = .fin r ∧ |r - q| ≤ 2 ^ (E - 24) := by
  have hb : binade q ≤ E := binade_le_of_lt q E h hE
  have hu : ulp q / 2 ≤ 2 ^ (E - 24) := by
    unfold ulp
    have : (2 : ℚ) ^ (binade q - 23) ≤ 2 ^ (E - 23) :=
      zpow_le_zpow_right₀ (by norm_num) (by omega)
    have e : (2 : ℚ) ^ (E - 23) = 2 * 2 ^ (E - 24) := by
      rw [show E - 23 = (E - 24) + 1 by ring, zpow_add₀ (by norm_num), zpow_one]
      ring
    linarith
  have herr := rv_err q
  have hlt : |rv q| < 2 ^ 128 := by
    have h1 : |rv q| ≤ |rv q - q| + |q| := by
      have := abs_add (rv q - q) q
      rwa [sub_add_cancel] at this
    have h2 : (2 : ℚ) ^ (E - 24) ≤ 2 ^ (102 : ℤ) := zpow_le_zpow_right₀ (by norm_num) (by omega)
    have h3 : (2 : ℚ) ^ (E + 1) ≤ 2 ^ (127 : ℤ) := zpow_le_zpow_right₀ (by norm_num) (by omega)
    have h4 : (2 : ℚ) ^ (102 : ℤ) + 2 ^ (127 : ℤ) < 2 ^ 128 := by norm_num
    linarith
  refine ⟨rv q, ?_, le_trans herr hu⟩
  unfold rnd
  rw [if_pos hlt]

theorem of_int_small (n : ℤ) (h : |n| < 2 ^ 24) : F32.of_int n = .fin (n : ℚ) :=
  rnd_of_int n h

theorem lit_3_3 : F32.lit 3.3 = .fin (13841203 / 4194304) :=
  rnd_near _ _ (1) (13841203) (by norm_num)

theorem lit_1_65 : F32.lit 1.65 = .fin (13841203 / 8388608) :=
  rnd_near _ _ (0) (13841203) (by norm_num)

theorem lit_0_9 : F32.lit 0.9 = .fin (7549747 / 8388608) :=
  rnd_near _ _ (-1) (15099494) (by norm_num)

theorem lit_0_1 : F32.lit 0.1 = .fin (13421773 / 134217728) :=
  rnd_near _ _ (-4) (13421773) (by norm_num)

/-! ## Arithmetic of the packer -/

theorem mask_nbits_20 (x : ℤ) : mask_nbits x 20 = enc20 x := by
  unfold mask_nbits to_uint32 enc20
  have h : ((1 <<< 20) % 2 ^ 32 + 2 ^ 32 - 1) % 2 ^ 32 = 2 ^ 20 - 1 := by decide
  rw [h, Nat.and_pow_two_sub_one_eq_mod]
  omega

theorem enc20_lt (z : ℤ) : enc20 z < 2 ^ 20 := by
  unfold enc20
  omega

theorem or_shifted (a b i : ℕ) (hb : b < 2 ^ i) : a * 2 ^ i ||| b = a * 2 ^ i + b := by
  rw [Nat.mul_comm a (2 ^ i)]
  exact (Nat.mul_add_lt_is_or hb a).symm

theorem pack_packet0 (a b c : ℕ) (ha : a < 2 ^ 5) (hb : b < 2 ^ 20) (hc : c < 2 ^ 20) :
    ((0 ||| (a <<< 58) % 2 ^ 64) ||| (b <<< 38) % 2 ^ 64) ||| (c <<< 18) % 2 ^ 64
      = a * 2 ^ 58 + b * 2 ^ 38 + c * 2 ^ 18 := by
  simp only [Nat.shiftLeft_eq, Nat.zero_or]
  rw [Nat.mod_eq_of_lt (by omega), Nat.mod_eq_of_lt (by omega), Nat.mod_eq_of_lt (by omega)]
  rw [or_shifted a _ 58 (by omega)]
  have e : a * 2 ^ 58 + b * 2 ^ 38 = (a * 2 ^ 20 + b) * 2 ^ 38 := by omega
  rw [e, or_shifted _ _ 38 (by omega)]

theorem pack_packet1 (b c : ℕ) (hb : b < 2 ^ 20) (hc : c < 2 ^ 20) :
    ((0 ||| (1 <<< 63) % 2 ^ 64) ||| (b <<< 43) % 2 ^ 64) ||| (c <<< 23) % 2 ^ 64
      = 2 ^ 63 + b * 2 ^ 43 + c * 2 ^ 23 := by
  simp only [Nat.shiftLeft_eq, Nat.zero_or]
  rw [Nat.mod_eq_of_lt (by omega), Nat.mod_eq_of_lt (by omega), Nat.mod_eq_of_lt (by omega)]
  rw [or_shifted 1 _ 63 (by omega)]
  have e : 1 * 2 ^ 63 + b * 2 ^ 43 = (2 ^ 20 + b) * 2 ^ 43 := by omega
  rw [e, or_shifted _ _ 43 (by omega)]
  omega

/-- The word of packet 0 is the sum of its three shifted fields. -/
theorem packet0_word (ps : PowerState) :
    (get_poll_data ps true).1
      = (if ps.externalEnable then 1 else 0) * 2 ^ 58
        + enc20 (clamp_s (to_int32 (scaled100 ps.probeVoltageOutput)) min_val max_val) * 2 ^ 38
        + enc20 (clamp_s (to_int32 (scaled100 ps.probeCurrent)) min_val max_val) * 2 ^ 18 := by
  have hf : ((if ps.externalEnable then 1 else 0 : ℕ) &&& 0x1F)
      = (if ps.externalEnable then 1 else 0) := by
    cases ps.externalEnable <;> decide
  simp only [get_poll_data, if_true, mask_nbits_20, hf, scaled100, times100]
  apply pack_packet0
  · split <;> decide
  · exact enc20_lt _
  · exact enc20_lt _

/-- The word of packet 1 as the source assembles it. -/
theorem get_poll_data_false (ps : PowerState) :
    (get_poll_data ps false).1
      = ((0 ||| (1 <<< 63) % 2 ^ 64)
          ||| (mask_nbits (clamp_s (to_int32 (lroundf (F32.mul ps.setCurrent (.fin 100))))
                min_val max_val) 20 <<< 43) % 2 ^ 64)
          ||| (mask_nbits (clamp_s (to_int32 (lroundf (F32.mul (.fin 25) (.fin 100))))
                min_val max_val) 20 <<< 23) % 2 ^ 64 := rfl

theorem packet1_word_of (s t : F32) :
    ((0 ||| (1 <<< 63) % 2 ^ 64)
        ||| (mask_nbits (clamp_s (to_int32 (lroundf (F32.mul s (.fin 100))))
              min_val max_val) 20 <<< 43) % 2 ^ 64)
        ||| (mask_nbits (clamp_s (to_int32 (lroundf t)) min_val max_val) 20 <<< 23) % 2 ^ 64
      = 2 ^ 63
        + enc20 (clamp_s (to_int32 (scaled100 s)) min_val max_val) * 2 ^ 43
        + enc20 (clamp_s (to_int32 (lroundf t)) min_val max_val) * 2 ^ 23 := by
  simp only [mask_nbits_20, scaled100, times100]
  exact pack_packet1 _ _ (enc20_lt _) (enc20_lt _)

/-- The word of packet 1 is the id bit plus its two shifted fields. -/
theorem packet1_word (ps : PowerState) :
    (get_poll_data ps false).1
      = 2 ^ 63
        + enc20 (clamp_s (to_int32 (scaled100 ps.setCurrent)) min_val max_val) * 2 ^ 43
        + enc20 (clamp_s (to_int32 (lroundf (F32.mul (.fin 25) (.fin 100)))) min_val max_val)
            * 2 ^ 23 := by
  rw [get_poll_data_false, packet1_word_of]

theorem round_half_away_intCast (n : ℤ) : round_half_away (n : ℚ) = n := by
  unfold round_half_away
  split_ifs with h
  · rw [Int.floor_eq_iff]
    constructor <;> norm_num
  · have e : -(n : ℚ) + 1 / 2 = ((-n : ℤ) : ℚ) + 1 / 2 := by push_cast; ring
    have : ⌊-(n : ℚ) + 1 / 2⌋ = -n := by
      rw [e, Int.floor_eq_iff]
      constructor <;> norm_num
    rw [this, neg_neg]

theorem lroundf_fin (q : ℚ) :
    lroundf (.fin q) = max (-2 ^ 31) (min (round_half_away q) (2 ^ 31 - 1)) := rfl

theorem lroundf_range (x : F32) : -2 ^ 31 ≤ lroundf x ∧ lroundf x < 2 ^ 31 := by
  cases x with
  | fin q =>
    rw [lroundf_fin]
    constructor
    · exact le_max_left _ _
    · have : max (-2 ^ 31) (min (round_half_away q) (2 ^ 31 - 1)) ≤ 2 ^ 31 - 1 :=
        max_le (by norm_num) (min_le_right _ _)
      omega
  | pinf => unfold lroundf; norm_num
  | ninf => unfold lroundf; norm_num
  | nan => unfold lroundf; norm_num

theorem lroundf_fin_of_fits (q : ℚ)
    (h : -2 ^ 31 ≤ round_half_away q ∧ round_half_away q ≤ 2 ^ 31 - 1) :
    lroundf (.fin q) = round_half_away q := by
  rw [lroundf_fin, min_eq_left h.2, max_eq_right h.1]

theorem lroundf_fin_int (n : ℤ) (h : -2 ^ 31 ≤ n ∧ n ≤ 2 ^ 31 - 1) :
    lroundf (.fin (n : ℚ)) = n := by
  rw [lroundf_fin_of_fits _ (by rw [round_half_away_intCast]; exact h), round_half_away_intCast]

theorem clamp20_lroundf_fin (q : ℚ) :
    clamp20 (lroundf (.fin q)) = clamp20 (round_half_away q) := by
  rw [lroundf_fin]
  unfold clamp20
  omega

theorem to_int32_of_fits (z : ℤ) (h : -2 ^ 31 ≤ z ∧ z < 2 ^ 31) : to_int32 z = z := by
  unfold to_int32
  omega

theorem to_int32_lroundf (x : F32) : to_int32 (lroundf x) = lroundf x :=
  to_int32_of_fits _ (lroundf_range x)

theorem clamp_s_eq_clamp20 (z : ℤ) : clamp_s z min_val max_val = clamp20 z := by
  have h1 : min_val = -2 ^ 19 := by decide
  have h2 : max_val = 2 ^ 19 - 1 := by decide
  unfold clamp_s clamp20
  rw [h1, h2]
  split_ifs <;> omega

theorem rnd_int_eq (q : ℚ) (n : ℤ) (hq : q = n) (h : |n| < 2 ^ 24) : rnd q = .fin q := by
  rw [hq]
  exact rnd_of_int n h

theorem lroundf_int_eq (q : ℚ) (n : ℤ) (hq : q = n) (h : -2 ^ 31 ≤ n ∧ n ≤ 2 ^ 31 - 1) :
    lroundf (.fin q) = n := by
  rw [hq]
  exact lroundf_fin_int n h

theorem mul_25_100 : F32.mul (.fin 25) (.fin 100) = .fin 2500 := by
  rw [mul_fin_fin]
  have e : (25 : ℚ) * 100 = 2500 := by norm_num
  rw [e]
  exact rnd_int_eq 2500 2500 (by norm_num) (by norm_num)

theorem lroundf_2500 : lroundf (.fin 2500) = 2500 :=
  lroundf_int_eq 2500 2500 (by norm_num) (by norm_num)

theorem fields_packet0 (a b c : ℕ) (ha : a < 2) (hb : b < 2 ^ 20) (hc : c < 2 ^ 20) :
    a * 2 ^ 58 + b * 2 ^ 38 + c * 2 ^ 18 < 2 ^ 64 ∧
    bits (a * 2 ^ 58 + b * 2 ^ 38 + c * 2 ^ 18) 63 63 = 0 ∧
    bits (a * 2 ^ 58 + b * 2 ^ 38 + c * 2 ^ 18) 62 58 = a ∧
    bits (a * 2 ^ 58 + b * 2 ^ 38 + c * 2 ^ 18) 62 59 = 0 ∧
    bits (a * 2 ^ 58 + b * 2 ^ 38 + c * 2 ^ 18) 57 38 = b ∧
    bits (a * 2 ^ 58 + b * 2 ^ 38 + c * 2 ^ 18) 37 18 = c ∧
    bits (a * 2 ^ 58 + b * 2 ^ 38 + c * 2 ^ 18) 17 0 = 0 := by
  simp only [bits, Nat.shiftRight_eq_div_pow]
  norm_num
  omega

theorem fields_packet1 (b c : ℕ) (hb : b < 2 ^ 20) (hc : c < 2 ^ 20) :
    2 ^ 63 + b * 2 ^ 43 + c * 2 ^ 23 < 2 ^ 64 ∧
    bits (2 ^ 63 + b * 2 ^ 43 + c * 2 ^ 23) 63 63 = 1 ∧
    bits (2 ^ 63 + b * 2 ^ 43 + c * 2 ^ 23) 62 43 = b ∧
    bits (2 ^ 63 + b * 2 ^ 43 + c * 2 ^ 23) 42 23 = c ∧
    bits (2 ^ 63 + b * 2 ^ 43 + c * 2 ^ 23) 22 0 = 0 := by
  simp only [bits, Nat.shiftRight_eq_div_pow]
  norm_num
  omega

/-- The fields of packet 0, for every power state. -/
theorem packet0_fields (ps : PowerState) :
    (get_poll_data ps true).1 < 2 ^ 64 ∧
    bits (get_poll_data ps true).1 63 63 = 0 ∧
    bits (get_poll_data ps true).1 62 58 = (if ps.externalEnable then 1 else 0) ∧
    bits (get_poll_data ps true).1 62 59 = 0 ∧
    bits (get_poll_data ps true).1 57 38 = enc20 (clamp20 (scaled100 ps.probeVoltageOutput)) ∧
    bits (get_poll_data ps true).1 37 18 = enc20 (clamp20 (scaled100 ps.probeCurrent)) ∧
    bits (get_poll_data ps true).1 17 0 = 0 := by
  rw [packet0_word]
  unfold scaled100
  rw [to_int32_lroundf, to_int32_lroundf, clamp_s_eq_clamp20, clamp_s_eq_clamp20]
  exact fields_packet0 _ _ _ (by split <;> decide) (enc20_lt _) (enc20_lt _)

/-- The fields of packet 1, for every power state. -/
theorem packet1_fields (ps : PowerState) :
    (get_poll_data ps false).1 < 2 ^ 64 ∧
    bits (get_poll_data ps false).1 63 63 = 1 ∧
    bits (get_poll_data ps false).1 62 43 = enc20 (clamp20 (scaled100 ps.setCurrent)) ∧
    bits (get_poll_data ps false).1 42 23 = 2500 ∧
    bits (get_poll_data ps false).1 22 0 = 0 := by
  rw [packet1_word, mul_25_100, lroundf_2500]
  unfold scaled100
  rw [to_int32_lroundf, clamp_s_eq_clamp20, clamp_s_eq_clamp20,
    to_int32_of_fits 2500 (by norm_num)]
  have e : enc20 (clamp20 2500) = 2500 := by decide
  rw [e]
  exact fields_packet1 _ _ (enc20_lt _) (by norm_num)

/-! ## Worked values of the packer -/

theorem lit_12_34 : F32.lit 12.34 = .fin (3234857 / 262144) := by
  have h := rnd_eval_near 12.34 3 12939428 (by norm_num) (by norm_num) (by norm_num)
    (by norm_num) (by norm_num) (by norm_num) (by norm_num)
  rw [F32.lit, h]
  norm_num

theorem lit_56_78 : F32.lit 56.78 = .fin (1860567 / 32768) := by
  have h := rnd_eval_near 56.78 5 14884536 (by norm_num) (by norm_num) (by norm_num)
    (by norm_num) (by norm_num) (by norm_num) (by norm_num)
  rw [F32.lit, h]
  norm_num

theorem lit_1_005 : F32.lit 1.005 = .fin (8430551 / 8388608) := by
  have h := rnd_eval_near 1.005 0 8430551 (by norm_num) (by norm_num) (by norm_num)
    (by norm_num) (by norm_num) (by norm_num) (by norm_num)
  rw [F32.lit, h]
  norm_num

theorem times100_12_34 : times100 (.fin (3234857 / 262144)) = .fin 1234 := by
  have h := rnd_eval_near (3234857 / 262144 * 100) 10 10108928 (by norm_num) (by norm_num)
    (by norm_num) (by norm_num) (by norm_num) (by norm_num) (by norm_num)
  rw [times100, mul_fin_fin, h]
  norm_num

theorem times100_56_78 : times100 (.fin (1860567 / 32768)) = .fin 5678 := by
  have h := rnd_eval_near (1860567 / 32768 * 100) 12 11628544 (by norm_num) (by norm_num)
    (by norm_num) (by norm_num) (by norm_num) (by norm_num) (by norm_num)
  rw [times100, mul_fin_fin, h]
  norm_num

theorem times100_1_005 : times100 (.fin (8430551 / 8388608)) = .fin (201 / 2) := by
  have h := rnd_eval_near (8430551 / 8388608 * 100) 6 13172736 (by norm_num) (by norm_num)
    (by norm_num) (by norm_num) (by norm_num) (by norm_num) (by norm_num)
  rw [times100, mul_fin_fin, h]
  norm_num

theorem lroundf_fin_eq (q : ℚ) (n : ℤ) (hn : round_half_away q = n)
    (h : -2 ^ 31 ≤ n ∧ n ≤ 2 ^ 31 - 1) : lroundf (.fin q) = n := by
  rw [lroundf_fin_of_fits q (by rw [hn]; exact h), hn]

theorem scaled100_example_voltage : scaled100 example_packing.probeVoltageOutput = 1234 := by
  show lroundf (times100 (F32.lit 12.34)) = 1234
  rw [lit_12_34, times100_12_34]
  exact lroundf_int_eq 1234 1234 (by norm_num) (by norm_num)

theorem scaled100_example_current : scaled100 example_packing.probeCurrent = -5678 := by
  show lroundf (F32.mul (F32.neg (F32.lit 56.78)) (.fin 100)) = -5678
  rw [mul_neg_fin, lit_56_78]
  have h := times100_56_78
  unfold times100 at h
  rw [h]
  show lroundf (.fin (-5678)) = -5678
  exact lroundf_int_eq (-5678) (-5678) (by norm_num) (by norm_num)

theorem not_lt_zero_of_nonneg (q : ℚ) (h : 0 ≤ q) : ¬ (F32.fin q < F32.fin 0) :=
  fun hlt => absurd (f32_fin_lt_fin.mp hlt) (not_lt.mpr h)

theorem set_curr_of_nonneg (ps : PowerState) (q : ℚ) (h : 0 ≤ q) :
    (set_curr ps (.fin q)).1 = { ps with setCurrent := .fin q } := by
  unfold set_curr
  rw [if_neg (not_lt_zero_of_nonneg q h)]

theorem example_setpoint_setCurrent :
    example_setpoint.setCurrent = .fin (8430551 / 8388608) := by
  unfold example_setpoint
  rw [lit_1_005, set_curr_of_nonneg _ _ (by norm_num)]

theorem round_half_away_201_2 : round_half_away (201 / 2) = 101 := by
  unfold round_half_away
  rw [if_pos (by norm_num)]
  rw [Int.floor_eq_iff]
  constructor <;> norm_num

theorem scaled100_example_setpoint : scaled100 example_setpoint.setCurrent = 101 := by
  rw [example_setpoint_setCurrent]
  unfold scaled100
  rw [times100_1_005]
  exact lroundf_fin_eq _ 101 round_half_away_201_2 (by norm_num)

theorem overrange_setpoint_setCurrent : overrange_setpoint.setCurrent = .fin 30000000 := by
  unfold overrange_setpoint
  rw [set_curr_of_nonneg _ _ (by norm_num)]

theorem times100_overrange : times100 (.fin 30000000) = .fin 3000000000 := by
  rw [times100, mul_fin_fin]
  have e : (30000000 : ℚ) * 100 = 3000000000 := by norm_num
  rw [e]
  apply rnd_of_representable
  exact ⟨11718750, 8, by norm_num, by norm_num, by norm_num, by norm_num⟩

/-! ## Telemetry codec -/

/-- C1: for every power state, packet 0 is a 64-bit word with bit 63 clear, bits[62:58] equal
to the flag bundle (bit 0 is `externalEnable`, the four bits above it are 0), bits[57:38] and
bits[37:18] equal to the 20-bit two's-complement encodings of the clamped scaled voltage and
current `clamp(lroundf(x * 100.0f), -2^19, 2^19 - 1)`, and bits[17:0] clear.  Whenever the
binary32 product `x * 100.0f` is a finite number `p`, the field is the encoding of
`clamp(round(p), -2^19, 2^19 - 1)`, with `round` the nearest integer of `p`. -/
theorem packet0_layout (ps : PowerState) :
    (get_poll_data ps true).1 < 2 ^ 64 ∧
    bits (get_poll_data ps true).1 63 63 = 0 ∧
    bits (get_poll_data ps true).1 62 58 = (if ps.externalEnable then 1 else 0) ∧
    bits (get_poll_data ps true).1 62 59 = 0 ∧
    bits (get_poll_data ps true).1 57 38 = enc20 (clamp20 (scaled100 ps.probeVoltageOutput)) ∧
    bits (get_poll_data ps true).1 37 18 = enc20 (clamp20 (scaled100 ps.probeCurrent)) ∧
    bits (get_poll_data ps true).1 17 0 = 0 ∧
    (∀ p : ℚ, times100 ps.probeVoltageOutput = .fin p →
      bits (get_poll_data ps true).1 57 38 = enc20 (clamp20 (round_half_away p))) ∧
    (∀ p : ℚ, times100 ps.probeCurrent = .fin p →
      bits (get_poll_data ps true).1 37 18 = enc20 (clamp20 (round_half_away p))) := by
  obtain ⟨h64, h63, hf, hr, hv, hc, h0⟩ := packet0_fields ps
  refine ⟨h64, h63, hf, hr, hv, hc, h0, fun p hp => ?_, fun p hp => ?_⟩
  · rw [hv, scaled100, hp, clamp20_lroundf_fin]
  · rw [hc, scaled100, hp, clamp20_lroundf_fin]

/-- C1, worked example of the specification: 12.34 V, -56.78 A and external enable give
flags 0b00001, voltage field 1234 and current field 1042898; the binary32 products are the
finite numbers 1234 and -5678. -/
theorem packet0_spec_example :
    times100 example_packing.probeVoltageOutput = .fin 1234 ∧
    times100 example_packing.probeCurrent = .fin (-5678) ∧
    bits (get_poll_data example_packing true).1 63 63 = 0 ∧
    bits (get_poll_data example_packing true).1 62 58 = 1 ∧
    bits (get_poll_data example_packing true).1 57 38 = 1234 ∧
    bits (get_poll_data example_packing true).1 37 18 = 1042898 ∧
    bits (get_poll_data example_packing true).1 17 0 = 0 := by
  have hv : times100 example_packing.probeVoltageOutput = .fin 1234 := by
    show times100 (F32.lit 12.34) = .fin 1234
    rw [lit_12_34, times100_12_34]
  have hc : times100 example_packing.probeCurrent = .fin (-5678) := by
    show F32.mul (F32.neg (F32.lit 56.78)) (.fin 100) = .fin (-5678)
    rw [mul_neg_fin, lit_56_78]
    have h := times100_56_78
    unfold times100 at h
    rw [h]
    rfl
  obtain ⟨-, h63, hf, -, -, -, h0, kv, kc⟩ := packet0_layout example_packing
  have e1 : enc20 (clamp20 (round_half_away 1234)) = 1234 := by
    have := round_half_away_intCast 1234
    norm_num at this
    rw [this]; decide
  have e2 : enc20 (clamp20 (round_half_away (-5678))) = 1042898 := by
    have := round_half_away_intCast (-5678)
    norm_num at this
    rw [this]; decide
  exact ⟨hv, hc, h63, hf, (kv _ hv).trans e1, (kc _ hc).trans e2, h0⟩

/-- C2: for every power state, packet 1 is a 64-bit word with bit 63 set, bits[62:43] equal to
the 20-bit two's-complement encoding of the clamped scaled setpoint
`clamp(lroundf(setCurrent * 100.0f), -2^19, 2^19 - 1)`, bits[42:23] equal to 2500 (the
temperature placeholder 25 times 100, which is its own 20-bit encoding) and bits[22:0] clear.
Whenever the binary32 product `setCurrent * 100.0f` is a finite number `p`, the setpoint field
is the encoding of `clamp(round(p), -2^19, 2^19 - 1)`. -/
theorem packet1_layout (ps : PowerState) :
    (get_poll_data ps false).1 < 2 ^ 64 ∧
    bits (get_poll_data ps false).1 63 63 = 1 ∧
    bits (get_poll_data ps false).1 62 43 = enc20 (clamp20 (scaled100 ps.setCurrent)) ∧
    bits (get_poll_data ps false).1 42 23 = 2500 ∧
    times100 (.fin 25) = .fin 2500 ∧
    enc20 (clamp20 (scaled100 (.fin 25))) = 2500 ∧
    bits (get_poll_data ps false).1 22 0 = 0 ∧
    (∀ p : ℚ, times100 ps.setCurrent = .fin p →
      bits (get_poll_data ps false).1 62 43 = enc20 (clamp20 (round_half_away p))) := by
  obtain ⟨h64, h63, hs, ht, h0⟩ := packet1_fields ps
  have e : scaled100 (.fin 25) = 2500 := by
    unfold scaled100 times100
    rw [mul_25_100, lroundf_2500]
  refine ⟨h64, h63, hs, ht, mul_25_100, ?_, h0, fun p hp => ?_⟩
  · rw [e]; decide
  · rw [hs, scaled100, hp, clamp20_lroundf_fin]

/-- C2, worked example: after `set_curr(1.005f)` the binary32 product is 100.5, so the
setpoint field is 101; the id bit is 1 and the temperature field 2500. -/
theorem packet1_setpoint_example :
    times100 example_setpoint.setCurrent = .fin (201 / 2) ∧
    bits (get_poll_data example_setpoint false).1 63 63 = 1 ∧
    bits (get_poll_data example_setpoint false).1 62 43 = 101 ∧
    bits (get_poll_data example_setpoint false).1 42 23 = 2500 ∧
    bits (get_poll_data example_setpoint false).1 22 0 = 0 := by
  have hp : times100 example_setpoint.setCurrent = .fin (201 / 2) := by
    rw [example_setpoint_setCurrent, times100_1_005]
  obtain ⟨-, h63, -, ht, -, -, h0, k⟩ := packet1_layout example_setpoint
  have e : enc20 (clamp20 (round_half_away (201 / 2))) = 101 := by
    rw [round_half_away_201_2]; decide
  exact ⟨hp, h63, (k _ hp).trans e, ht, h0⟩

/-! ## Packet alternation, round trip and range overflow -/

theorem get_poll_data_toggle (ps : PowerState) (b : Bool) : (get_poll_data ps b).2 = !b := rfl

theorem packet_id_of_toggle (ps : PowerState) (b : Bool) :
    bits (get_poll_data ps b).1 63 63 = (if b then 0 else 1) := by
  cases b
  · exact (packet1_fields ps).2.1
  · exact (packet0_fields ps).2.1

theorem poll_trace_ids (evs : List Event) : ∀ (ps : PowerState) (b : Bool),
    (poll_trace ⟨ps, b⟩ evs).map (fun w => bits w 63 63)
      = (List.range (evs.countP Event.isPoll)).map
          (fun k => (k + (if b then 0 else 1)) % 2) := by
  induction evs with
  | nil => intro ps b; simp [poll_trace]
  | cons e es ih =>
    intro ps b
    cases e with
    | command c => simpa [poll_trace, Event.isPoll] using ih _ b
    | control ps2 => simpa [poll_trace, Event.isPoll] using ih ps2 b
    | poll =>
      simp only [poll_trace, List.map_cons, List.countP_cons_of_pos, Event.isPoll,
        List.range_succ_eq_map, List.map_map]
      rw [packet_id_of_toggle, ih, get_poll_data_toggle]
      cases b
      · simp [Function.comp_def]
        intro a _
        omega
      · simp [Function.comp_def]

/-- C3: started with the toggle in its reset value (`send_packet_zero = true`), whatever the
power state is and whatever command handlers and control-loop writes run between the calls,
the words returned by the N calls of `get_poll_data` in a sequence of events carry the packet
ids `0 % 2, 1 % 2, ..., (N-1) % 2` in bit 63: the k-th call returns id `k mod 2`. -/
theorem packet_ids_alternate (ps : PowerState) (evs : List Event) :
    (poll_trace ⟨ps, true⟩ evs).map (fun w => bits w 63 63)
      = (List.range (evs.countP Event.isPoll)).map (fun k => k % 2) := by
  simpa using poll_trace_ids evs ps true

theorem sign_extend20_enc20 (z : ℤ) (h : -2 ^ 19 ≤ z ∧ z ≤ 2 ^ 19 - 1) :
    sign_extend20 (enc20 z) = z := by
  unfold sign_extend20 enc20
  split_ifs <;> omega

theorem clamp20_of_fits (z : ℤ) (h : -2 ^ 19 ≤ z ∧ z ≤ 2 ^ 19 - 1) : clamp20 z = z := by
  unfold clamp20
  omega

theorem clamp20_range (z : ℤ) : -2 ^ 19 ≤ clamp20 z ∧ clamp20 z ≤ 2 ^ 19 - 1 := by
  unfold clamp20
  omega

/-- Reading a field back: the decoded value is the clamped scaled value. -/
theorem decode_field (z : ℤ) : sign_extend20 (enc20 (clamp20 z)) = clamp20 z :=
  sign_extend20_enc20 _ (clamp20_range z)

theorem decode_scaled_fin (x : F32) (p : ℚ) (hp : times100 x = .fin p) :
    sign_extend20 (enc20 (clamp20 (scaled100 x))) = clamp20 (round_half_away p) := by
  rw [decode_field, scaled100, hp, clamp20_lroundf_fin]

theorem clamp20_high (z : ℤ) (h : 2 ^ 19 - 1 < z) : clamp20 z = 2 ^ 19 - 1 := by
  unfold clamp20
  omega

theorem clamp20_low (z : ℤ) (h : z < -2 ^ 19) : clamp20 z = -2 ^ 19 := by
  unfold clamp20
  omega

theorem scaled100_pinf (x : F32) (h : times100 x = .pinf) : scaled100 x = 2 ^ 31 - 1 := by
  rw [scaled100, h]; rfl

theorem scaled100_ninf (x : F32) (h : times100 x = .ninf) : scaled100 x = -2 ^ 31 := by
  rw [scaled100, h]; rfl

theorem round_half_away_ge (q : ℚ) (n : ℤ) (hn : 0 < n) (h : (n : ℚ) - 1 / 2 ≤ q) :
    n ≤ round_half_away q := by
  have hn1 : (1 : ℚ) ≤ n := by exact_mod_cast hn
  unfold round_half_away
  rw [if_pos (by linarith)]
  exact Int.le_floor.mpr (by linarith)

theorem round_half_away_le (q : ℚ) (n : ℤ) (hn : n < 0) (h : q ≤ (n : ℚ) + 1 / 2) :
    round_half_away q ≤ n := by
  have hn1 : (n : ℚ) ≤ -1 := by exact_mod_cast Int.le_sub_one_of_lt hn
  unfold round_half_away
  rw [if_neg (by linarith)]
  have : -n ≤ ⌊-q + 1 / 2⌋ := Int.le_floor.mpr (by push_cast; linarith)
  omega

theorem ge_of_round_half_away_ge (q : ℚ) (n : ℤ) (hn : 0 < n) (h : n ≤ round_half_away q) :
    (n : ℚ) - 1 / 2 ≤ q := by
  unfold round_half_away at h
  split_ifs at h with h0
  · have := Int.le_floor.mp h
    linarith
  · have : 0 ≤ ⌊-q + 1 / 2⌋ := Int.floor_nonneg.mpr (by linarith)
    omega

theorem le_of_round_half_away_le (q : ℚ) (n : ℤ) (hn : n < 0) (h : round_half_away q ≤ n) :
    q ≤ (n : ℚ) + 1 / 2 := by
  unfold round_half_away at h
  split_ifs at h with h0
  · have : 0 ≤ ⌊q + 1 / 2⌋ := Int.floor_nonneg.mpr (by linarith)
    omega
  · have h1 : -n ≤ ⌊-q + 1 / 2⌋ := by omega
    have := Int.le_floor.mp h1
    push_cast at this
    linarith

/-- A value whose exact product with 100 rounds above the 20-bit range has a binary32 product
that still rounds above it, or is `+inf`. -/
theorem times100_high (v : ℚ) (h : 2 ^ 19 - 1 < round_half_away (v * 100)) :
    times100 (.fin v) = .pinf ∨
    ∃ p : ℚ, times100 (.fin v) = .fin p ∧ 2 ^ 19 - 1 < round_half_away p := by
  have hq : ((524288 : ℤ) : ℚ) - 1 / 2 ≤ v * 100 :=
    ge_of_round_half_away_ge _ 524288 (by norm_num) (by omega)
  have hg : representable (((1048575 : ℤ) : ℚ) / 2) := representable_half_int 1048575 (by norm_num)
  have hle : F32.fin (((1048575 : ℤ) : ℚ) / 2) ≤ rnd (v * 100) :=
    rnd_ge_of_representable hg (by push_cast at hq ⊢; linarith)
  rw [times100, mul_fin_fin]
  rcases rnd_cases (v * 100) with ⟨e, -⟩ | ⟨e, -⟩ | ⟨e, hneg, -⟩
  · right
    rw [e] at hle
    refine ⟨_, e, ?_⟩
    have h1 := f32_fin_le_fin.mp hle
    have := round_half_away_ge (rv (v * 100)) 524288 (by norm_num)
      (by push_cast at h1 ⊢; linarith)
    omega
  · left; exact e
  · exfalso
    push_cast at hq
    linarith

/-- The same below the range. -/
theorem times100_low (v : ℚ) (h : round_half_away (v * 100) < -2 ^ 19) :
    times100 (.fin v) = .ninf ∨
    ∃ p : ℚ, times100 (.fin v) = .fin p ∧ round_half_away p < -2 ^ 19 := by
  have hq : v * 100 ≤ ((-524289 : ℤ) : ℚ) + 1 / 2 :=
    le_of_round_half_away_le _ (-524289) (by norm_num) (by omega)
  have hg : representable (((-1048577 : ℤ) : ℚ) / 2) :=
    representable_half_int (-1048577) (by norm_num)
  have hle : rnd (v * 100) ≤ F32.fin (((-1048577 : ℤ) : ℚ) / 2) :=
    rnd_le_of_representable hg (by push_cast at hq ⊢; linarith)
  rw [times100, mul_fin_fin]
  rcases rnd_cases (v * 100) with ⟨e, -⟩ | ⟨e, hpos, -⟩ | ⟨e, -⟩
  · right
    rw [e] at hle
    refine ⟨_, e, ?_⟩
    have h1 := f32_fin_le_fin.mp hle
    have := round_half_away_le (rv (v * 100)) (-524289) (by norm_num)
      (by push_cast at h1 ⊢; linarith)
    omega
  · exfalso
    push_cast at hq
    linarith
  · left; exact e

/-- Decoding the field of a value `x`: the clamp to the nearest boundary on overflow. -/
theorem decode_overflow (x : F32) :
    (∀ p : ℚ, times100 x = .fin p → 2 ^ 19 - 1 < round_half_away p →
      sign_extend20 (enc20 (clamp20 (scaled100 x))) = 2 ^ 19 - 1) ∧
    (∀ p : ℚ, times100 x = .fin p → round_half_away p < -2 ^ 19 →
      sign_extend20 (enc20 (clamp20 (scaled100 x))) = -2 ^ 19) ∧
    (times100 x = .pinf → sign_extend20 (enc20 (clamp20 (scaled100 x))) = 2 ^ 19 - 1) ∧
    (times100 x = .ninf → sign_extend20 (enc20 (clamp20 (scaled100 x))) = -2 ^ 19) ∧
    (∀ v : ℚ, x = .fin v → 2 ^ 19 - 1 < round_half_away (v * 100) →
      sign_extend20 (enc20 (clamp20 (scaled100 x))) = 2 ^ 19 - 1) ∧
    (∀ v : ℚ, x = .fin v → round_half_away (v * 100) < -2 ^ 19 →
      sign_extend20 (enc20 (clamp20 (scaled100 x))) = -2 ^ 19) := by
  have a1 : ∀ p : ℚ, times100 x = .fin p → 2 ^ 19 - 1 < round_half_away p →
      sign_extend20 (enc20 (clamp20 (scaled100 x))) = 2 ^ 19 - 1 := fun p hp h => by
    rw [decode_scaled_fin x p hp, clamp20_high _ h]
  have a2 : ∀ p : ℚ, times100 x = .fin p → round_half_away p < -2 ^ 19 →
      sign_extend20 (enc20 (clamp20 (scaled100 x))) = -2 ^ 19 := fun p hp h => by
    rw [decode_scaled_fin x p hp, clamp20_low _ h]
  have a3 : times100 x = .pinf → sign_extend20 (enc20 (clamp20 (scaled100 x))) = 2 ^ 19 - 1 :=
    fun h => by
      rw [decode_field, scaled100_pinf x h, clamp20_high _ (by norm_num)]
  have a4 : times100 x = .ninf → sign_extend20 (enc20 (clamp20 (scaled100 x))) = -2 ^ 19 :=
    fun h => by
      rw [decode_field, scaled100_ninf x h, clamp20_low _ (by norm_num)]
  refine ⟨a1, a2, a3, a4, fun v hv h => ?_, fun v hv h => ?_⟩
  · rcases times100_high v h with e | ⟨p, e, hp⟩
    · exact a3 (by rw [hv, e])
    · exact a1 p (by rw [hv, e]) hp
  · rcases times100_low v h with e | ⟨p, e, hp⟩
    · exact a4 (by rw [hv, e])
    · exact a2 p (by rw [hv, e]) hp

theorem field_decode_eq (ps : PowerState) (f : Field) :
    f.decode ps = sign_extend20 (enc20 (clamp20 (scaled100 (f.value ps)))) := by
  cases f with
  | voltage => show sign_extend20 (bits _ 57 38) = _; rw [(packet0_fields ps).2.2.2.2.1]; rfl
  | current => show sign_extend20 (bits _ 37 18) = _; rw [(packet0_fields ps).2.2.2.2.2.1]; rfl
  | setpoint => show sign_extend20 (bits _ 62 43) = _; rw [(packet1_fields ps).2.2.1]; rfl

theorem round_half_away_err (q : ℚ) : |(round_half_away q : ℚ) - q| ≤ 1 / 2 := by
  unfold round_half_away
  split_ifs with h
  · have h1 := Int.floor_le (q + 1 / 2)
    have h2 := Int.lt_floor_add_one (q + 1 / 2)
    rw [abs_le]
    constructor <;> linarith
  · have h1 := Int.floor_le (-q + 1 / 2)
    have h2 := Int.lt_floor_add_one (-q + 1 / 2)
    push_cast
    rw [abs_le]
    constructor <;> linarith

theorem round_half_away_near (p q : ℚ) (h : |p - q| ≤ 1 / 32) :
    |round_half_away p - round_half_away q| ≤ 1 := by
  have hp := round_half_away_err p
  have hq := round_half_away_err q
  rw [abs_le] at h hp hq
  have h1 : ((round_half_away p - round_half_away q : ℤ) : ℚ) < 2 := by push_cast; linarith
  have h2 : (-2 : ℚ) < ((round_half_away p - round_half_away q : ℤ) : ℚ) := by
    push_cast; linarith
  have h3 : round_half_away p - round_half_away q < 2 := by exact_mod_cast h1
  have h4 : -2 < round_half_away p - round_half_away q := by exact_mod_cast h2
  rw [abs_le]
  constructor <;> omega

/-- The field of a finite value whose exact product with 100 rounds into the 20-bit range
decodes to that rounded exact product or to a neighbour of it. -/
theorem decode_near_exact (v : ℚ)
    (h : -2 ^ 19 ≤ round_half_away (v * 100) ∧ round_half_away (v * 100) ≤ 2 ^ 19 - 1) :
    |sign_extend20 (enc20 (clamp20 (scaled100 (.fin v)))) - round_half_away (v * 100)| ≤ 1 := by
  have he := round_half_away_err (v * 100)
  rw [abs_le] at he
  have hn1 : ((round_half_away (v * 100) : ℤ) : ℚ) ≤ 524287 := by exact_mod_cast h.2
  have hn0 : (-524288 : ℚ) ≤ ((round_half_away (v * 100) : ℤ) : ℚ) := by exact_mod_cast h.1
  obtain ⟨p, ep, dp⟩ := rnd_err (v * 100) 19
    (by rw [abs_lt]; constructor <;> norm_num <;> linarith) (by norm_num) (by norm_num)
  norm_num at dp
  have hnear := round_half_away_near p (v * 100) dp
  rw [decode_scaled_fin (.fin v) p (by rw [times100, mul_fin_fin, ep])]
  rw [abs_le] at hnear ⊢
  unfold clamp20
  constructor <;> omega

/-- C4: telemetry round trip.  For each of the three scaled quantities, whenever the scaled
rounded value `n = round(x * 100.0f)` (the code's binary32 product, rounded to the nearest
integer) lies in `[-2^19, 2^19 - 1]`, sign-extending the 20-bit field read back from the word
returned by `get_poll_data` gives exactly `n`: bits[57:38] and bits[37:18] of packet 0,
bits[62:43] of packet 1.  Each field is recovered whatever the other fields of the word hold,
and the flag bundle and the temperature field are read back beside them.  Measured against
the exact product `x * 100` instead of the binary32 one, the value read back is the rounded
exact product or a neighbour of it. -/
theorem telemetry_round_trip (ps : PowerState) :
    (∀ p : ℚ, times100 ps.probeVoltageOutput = .fin p →
      -2 ^ 19 ≤ round_half_away p ∧ round_half_away p ≤ 2 ^ 19 - 1 →
      sign_extend20 (bits (get_poll_data ps true).1 57 38) = round_half_away p) ∧
    (∀ p : ℚ, times100 ps.probeCurrent = .fin p →
      -2 ^ 19 ≤ round_half_away p ∧ round_half_away p ≤ 2 ^ 19 - 1 →
      sign_extend20 (bits (get_poll_data ps true).1 37 18) = round_half_away p) ∧
    (∀ p : ℚ, times100 ps.setCurrent = .fin p →
      -2 ^ 19 ≤ round_half_away p ∧ round_half_away p ≤ 2 ^ 19 - 1 →
      sign_extend20 (bits (get_poll_data ps false).1 62 43) = round_half_away p) ∧
    (-2 ^ 19 ≤ scaled100 ps.probeVoltageOutput ∧ scaled100 ps.probeVoltageOutput ≤ 2 ^ 19 - 1 →
      sign_extend20 (bits (get_poll_data ps true).1 57 38) = scaled100 ps.probeVoltageOutput) ∧
    (-2 ^ 19 ≤ scaled100 ps.probeCurrent ∧ scaled100 ps.probeCurrent ≤ 2 ^ 19 - 1 →
      sign_extend20 (bits (get_poll_data ps true).1 37 18) = scaled100 ps.probeCurrent) ∧
    (-2 ^ 19 ≤ scaled100 ps.setCurrent ∧ scaled100 ps.setCurrent ≤ 2 ^ 19 - 1 →
      sign_extend20 (bits (get_poll_data ps false).1 62 43) = scaled100 ps.setCurrent) ∧
    bits (get_poll_data ps true).1 62 58 = (if ps.externalEnable then 1 else 0) ∧
    sign_extend20 (bits (get_poll_data ps false).1 42 23) = 2500 ∧
    (∀ (f : Field) (v : ℚ), f.value ps = .fin v →
      -2 ^ 19 ≤ round_half_away (v * 100) ∧ round_half_away (v * 100) ≤ 2 ^ 19 - 1 →
      |f.decode ps - round_half_away (v * 100)| ≤ 1) := by
  obtain ⟨-, -, hf, -, hv, hc, -⟩ := packet0_fields ps
  obtain ⟨-, -, hs, ht, -⟩ := packet1_fields ps
  refine ⟨fun p hp h => ?_, fun p hp h => ?_, fun p hp h => ?_, fun h => ?_, fun h => ?_,
    fun h => ?_, hf, ?_, fun f v hv2 h => by
      rw [field_decode_eq, hv2]
      exact decode_near_exact v h⟩
  · rw [hv, decode_scaled_fin _ p hp, clamp20_of_fits _ h]
  · rw [hc, decode_scaled_fin _ p hp, clamp20_of_fits _ h]
  · rw [hs, decode_scaled_fin _ p hp, clamp20_of_fits _ h]
  · rw [hv, decode_field, clamp20_of_fits _ h]
  · rw [hc, decode_field, clamp20_of_fits _ h]
  · rw [hs, decode_field, clamp20_of_fits _ h]
  · rw [ht]; decide

/-- C5: range overflow is clamped to the nearest boundary.  For each of the three scaled
quantities `x` of a power state: if the binary32 product `x * 100.0f` is a finite number
whose nearest integer is above `2^19 - 1`, or is `+inf`, the field decodes to `2^19 - 1`; if
its nearest integer is below `-2^19`, or it is `-inf`, the field decodes to `-2^19`; and the
same holds when the condition is put on the exact product: a finite `x = v` with
`round(v * 100) > 2^19 - 1` decodes to `2^19 - 1`, with `round(v * 100) < -2^19` to `-2^19`,
however large `v` is.  Where the rounded product does not fit the 32-bit `long` the value of
`lroundf` is that of the target's saturating conversion. -/
theorem overflow_clamped_to_boundary (ps : PowerState) (f : Field) :
    (∀ p : ℚ, times100 (f.value ps) = .fin p → 2 ^ 19 - 1 < round_half_away p →
      f.decode ps = 2 ^ 19 - 1) ∧
    (∀ p : ℚ, times100 (f.value ps) = .fin p → round_half_away p < -2 ^ 19 →
      f.decode ps = -2 ^ 19) ∧
    (times100 (f.value ps) = .pinf → f.decode ps = 2 ^ 19 - 1) ∧
    (times100 (f.value ps) = .ninf → f.decode ps = -2 ^ 19) ∧
    (∀ v : ℚ, f.value ps = .fin v → 2 ^ 19 - 1 < round_half_away (v * 100) →
      f.decode ps = 2 ^ 19 - 1) ∧
    (∀ v : ℚ, f.value ps = .fin v → round_half_away (v * 100) < -2 ^ 19 →
      f.decode ps = -2 ^ 19) := by
  rw [field_decode_eq]
  exact decode_overflow (f.value ps)

theorem round_half_away_exact_1_005 : round_half_away (8430551 / 8388608 * 100) = 100 := by
  unfold round_half_away
  rw [if_pos (by norm_num), Int.floor_eq_iff]
  constructor <;> norm_num

/-- C4, worked example: the fields of the specification's packing example decode to 1234 and
-5678; after `set_curr(1.005f)` the binary32 product is 100.5 and the field decodes to 101,
one count above the rounded exact product 100. -/
theorem round_trip_spec_example :
    sign_extend20 (bits (get_poll_data example_packing true).1 57 38) = 1234 ∧
    sign_extend20 (bits (get_poll_data example_packing true).1 37 18) = -5678 ∧
    sign_extend20 (bits (get_poll_data example_setpoint false).1 62 43) = 101 ∧
    example_setpoint.setCurrent = .fin (8430551 / 8388608) ∧
    round_half_away (8430551 / 8388608 * 100) = 100 ∧
    |Field.decode example_setpoint .setpoint - round_half_away (8430551 / 8388608 * 100)|
      ≤ 1 := by
  have h := telemetry_round_trip example_packing
  have k := telemetry_round_trip example_setpoint
  have k2 := k.2.2.2.2.2.2.2.2 .setpoint (8430551 / 8388608) example_setpoint_setCurrent
    (by rw [round_half_away_exact_1_005]; norm_num)
  rw [scaled100_example_voltage, scaled100_example_current] at h
  rw [scaled100_example_setpoint] at k
  exact ⟨h.2.2.2.1 (by decide), h.2.2.2.2.1 (by decide), k.2.2.2.2.2.1 (by decide),
    example_setpoint_setCurrent, round_half_away_exact_1_005, k2⟩

theorem round_half_away_overrange : round_half_away 3000000000 = 3000000000 := by
  have := round_half_away_intCast 3000000000
  norm_num at this
  exact this

/-- C5, worked example: after `set_curr(30000000.0f)` the product is 3000000000, beyond the
range of a 32-bit integer, and the setpoint field decodes to `2^19 - 1`. -/
theorem overflow_example :
    Field.value overrange_setpoint .setpoint = .fin 30000000 ∧
    times100 (.fin 30000000) = .fin 3000000000 ∧
    (2 : ℤ) ^ 31 - 1 < round_half_away 3000000000 ∧
    Field.decode overrange_setpoint .setpoint = 2 ^ 19 - 1 := by
  have hv : Field.value overrange_setpoint .setpoint = .fin 30000000 :=
    overrange_setpoint_setCurrent
  have hp : times100 (Field.value overrange_setpoint .setpoint) = .fin 3000000000 := by
    rw [hv, times100_overrange]
  have hr : (2 : ℤ) ^ 31 - 1 < round_half_away 3000000000 := by
    rw [round_half_away_overrange]; norm_num
  exact ⟨hv, times100_overrange, hr,
    (overflow_clamped_to_boundary overrange_setpoint .setpoint).1 _ hp
      (by rw [round_half_away_overrange]; norm_num)⟩

/-! ## Command dispatcher -/

/-- What the setpoint handlers store: the larger of the argument and zero, except that a NaN
argument is stored as it is (`NaN < 0` is false). -/
theorem clamp_negative_eq (val : F32) :
    (if val < .fin 0 then .fin 0 else val) = if val = .nan then .nan else F32.max0 val := by
  cases val with
  | fin q =>
    rw [if_neg (fun h => F32.noConfusion h)]
    by_cases h : q < 0
    · rw [if_pos (f32_fin_lt_fin.mpr h)]
      show F32.fin 0 = F32.fin (max q 0)
      rw [max_eq_right h.le]
    · rw [if_neg (fun hlt => h (f32_fin_lt_fin.mp hlt))]
      show F32.fin q = F32.fin (max q 0)
      rw [max_eq_left (not_lt.mp h)]
  | pinf =>
    have h : ¬ (F32.pinf < F32.fin 0) := fun h => h
    rw [if_neg (fun h => F32.noConfusion h), if_neg h]
    rfl
  | ninf =>
    have h : F32.ninf < F32.fin 0 := trivial
    rw [if_neg (fun h => F32.noConfusion h), if_pos h]
    rfl
  | nan =>
    have h : ¬ (F32.nan < F32.fin 0) := fun h => h
    rw [if_pos rfl, if_neg h]

theorem max0_nonneg (val : F32) : F32.fin 0 ≤ F32.max0 val := by
  cases val with
  | fin q => exact f32_fin_le_fin.mpr (le_max_right q 0)
  | pinf => exact trivial
  | ninf => exact f32_fin_le_fin.mpr le_rfl
  | nan => exact f32_fin_le_fin.mpr le_rfl

theorem stored_not_negative (val : F32) :
    ((if val < .fin 0 then .fin 0 else val) = F32.nan ∨
      F32.fin 0 ≤ (if val < .fin 0 then .fin 0 else val)) := by
  rw [clamp_negative_eq]
  by_cases h : val = .nan
  · left; rw [if_pos h]
  · right; rw [if_neg h]; exact max0_nonneg val

theorem run_preserves (ps : PowerState) (c : Command)
    (h : (ps.setVoltage = .nan ∨ F32.fin 0 ≤ ps.setVoltage) ∧
      (ps.setCurrent = .nan ∨ F32.fin 0 ≤ ps.setCurrent)) :
    ((c.run ps).1.setVoltage = .nan ∨ F32.fin 0 ≤ (c.run ps).1.setVoltage) ∧
    ((c.run ps).1.setCurrent = .nan ∨ F32.fin 0 ≤ (c.run ps).1.setCurrent) := by
  cases c with
  | set_volt val => exact ⟨stored_not_negative val, h.2⟩
  | set_curr val => exact ⟨h.1, stored_not_negative val⟩
  | set_internal_enable enable => exact h
  | set_warn_lamp_test test_active => exact h
  | set_example_out out_active => exact h

theorem run_commands_preserves (cmds : List Command) : ∀ (ps : PowerState),
    (ps.setVoltage = .nan ∨ F32.fin 0 ≤ ps.setVoltage) ∧
      (ps.setCurrent = .nan ∨ F32.fin 0 ≤ ps.setCurrent) →
    ((run_commands ps cmds).setVoltage = .nan ∨ F32.fin 0 ≤ (run_commands ps cmds).setVoltage) ∧
    ((run_commands ps cmds).setCurrent = .nan ∨
      F32.fin 0 ≤ (run_commands ps cmds).setCurrent) := by
  induction cmds with
  | nil => intro ps h; exact h
  | cons c cs ih => intro ps h; exact ih _ (run_preserves ps c h)

theorem stored_nonneg_of_not_nan (val : F32) (h : val ≠ .nan) :
    F32.fin 0 ≤ (if val < .fin 0 then .fin 0 else val) := by
  rw [clamp_negative_eq, if_neg h]
  exact max0_nonneg val

theorem run_preserves_nonneg (ps : PowerState) (c : Command) (hc : c.has_nan = false)
    (h : F32.fin 0 ≤ ps.setVoltage ∧ F32.fin 0 ≤ ps.setCurrent) :
    F32.fin 0 ≤ (c.run ps).1.setVoltage ∧ F32.fin 0 ≤ (c.run ps).1.setCurrent := by
  cases c with
  | set_volt val =>
    exact ⟨stored_nonneg_of_not_nan val (by simpa [Command.has_nan] using hc), h.2⟩
  | set_curr val =>
    exact ⟨h.1, stored_nonneg_of_not_nan val (by simpa [Command.has_nan] using hc)⟩
  | set_internal_enable enable => exact h
  | set_warn_lamp_test test_active => exact h
  | set_example_out out_active => exact h

theorem run_commands_preserves_nonneg (cmds : List Command) : ∀ (ps : PowerState),
    (∀ c ∈ cmds, c.has_nan = false) →
    F32.fin 0 ≤ ps.setVoltage ∧ F32.fin 0 ≤ ps.setCurrent →
    F32.fin 0 ≤ (run_commands ps cmds).setVoltage ∧
      F32.fin 0 ≤ (run_commands ps cmds).setCurrent := by
  induction cmds with
  | nil => intro ps _ h; exact h
  | cons c cs ih =>
    intro ps hc h
    exact ih _ (fun d hd => hc d (List.mem_cons_of_mem c hd))
      (run_preserves_nonneg ps c (hc c (List.mem_cons_self c cs)) h)

theorem not_lt_zero_of_nan_or_nonneg (x : F32) (h : x = .nan ∨ F32.fin 0 ≤ x) :
    ¬ (x < .fin 0) := by
  rcases h with h | h
  · rw [h]; exact fun hlt => hlt
  · exact f32_not_lt_of_le h

/-- C6 as stated fails: the handlers take a `float`, and for a NaN argument the test
`val < 0` is false, so NaN is stored: after `set_volt(NaN)` from reset the voltage setpoint is
NaN, which is neither `max(NaN, 0) = 0` nor `>= 0`; likewise for `set_curr`. -/
theorem setpoint_nan_stored :
    nan_setpoint = run_commands PowerState.reset [Command.set_volt .nan] ∧
    nan_setpoint.setVoltage = .nan ∧
    nan_setpoint.setVoltage ≠ F32.max0 .nan ∧
    ¬ (F32.fin 0 ≤ nan_setpoint.setVoltage) ∧
    (run_commands PowerState.reset [Command.set_curr .nan]).setCurrent = .nan ∧
    ¬ (F32.fin 0 ≤ (run_commands PowerState.reset [Command.set_curr .nan]).setCurrent) := by
  refine ⟨rfl, rfl, ?_, ?_, rfl, ?_⟩
  · show F32.nan ≠ F32.fin 0
    exact fun h => F32.noConfusion h
  · show ¬ (F32.fin 0 ≤ F32.nan)
    exact fun h => h
  · show ¬ (F32.fin 0 ≤ F32.nan)
    exact fun h => h

/-- C6 (amended): for every argument other than NaN, `set_volt` stores `max(val, 0)` into
`setVoltage` and `set_curr` stores `max(val, 0)` into `setCurrent`, a value that is `>= 0`; a
NaN argument is stored unchanged.  After every finite sequence of command-handler calls from
the reset state each setpoint is NaN or `>= 0`, so the comparison `setpoint < 0` is never
true; and when no NaN argument was sent both setpoints are `>= 0`. -/
theorem setpoints_never_negative :
    (∀ (ps : PowerState) (val : F32), val ≠ .nan →
      (set_volt ps val).1.setVoltage = F32.max0 val ∧
      F32.fin 0 ≤ (set_volt ps val).1.setVoltage) ∧
    (∀ (ps : PowerState) (val : F32), val ≠ .nan →
      (set_curr ps val).1.setCurrent = F32.max0 val ∧
      F32.fin 0 ≤ (set_curr ps val).1.setCurrent) ∧
    (∀ ps : PowerState, (set_volt ps .nan).1.setVoltage = .nan ∧
      (set_curr ps .nan).1.setCurrent = .nan) ∧
    (∀ cmds : List Command,
      ¬ ((run_commands PowerState.reset cmds).setVoltage < .fin 0) ∧
      ¬ ((run_commands PowerState.reset cmds).setCurrent < .fin 0)) ∧
    (∀ cmds : List Command, (∀ c ∈ cmds, c.has_nan = false) →
      F32.fin 0 ≤ (run_commands PowerState.reset cmds).setVoltage ∧
      F32.fin 0 ≤ (run_commands PowerState.reset cmds).setCurrent) := by
  have h0 : F32.fin 0 ≤ F32.fin 0 := f32_fin_le_fin.mpr le_rfl
  refine ⟨fun ps val hv => ?_, fun ps val hv => ?_, fun ps => ⟨rfl, rfl⟩, fun cmds => ?_,
    fun cmds hc => ?_⟩
  · have e : (set_volt ps val).1.setVoltage = F32.max0 val := by
      show (if val < .fin 0 then .fin 0 else val) = F32.max0 val
      rw [clamp_negative_eq, if_neg hv]
    exact ⟨e, by rw [e]; exact max0_nonneg val⟩
  · have e : (set_curr ps val).1.setCurrent = F32.max0 val := by
      show (if val < .fin 0 then .fin 0 else val) = F32.max0 val
      rw [clamp_negative_eq, if_neg hv]
    exact ⟨e, by rw [e]; exact max0_nonneg val⟩
  · have h := run_commands_preserves cmds PowerState.reset ⟨Or.inr h0, Or.inr h0⟩
    exact ⟨not_lt_zero_of_nan_or_nonneg _ h.1, not_lt_zero_of_nan_or_nonneg _ h.2⟩
  · exact run_commands_preserves_nonneg cmds PowerState.reset hc ⟨h0, h0⟩

/-- C6, worked example: `set_volt(-3)` stores 0, `set_curr(2.5)` stores 2.5, and after the
two commands plus a flag command both setpoints are `>= 0`. -/
theorem setpoints_example :
    (set_volt PowerState.reset (.fin (-3))).1.setVoltage = .fin 0 ∧
    (set_curr PowerState.reset (.fin (5 / 2))).1.setCurrent = .fin (5 / 2) ∧
    F32.fin 0 ≤ (run_commands PowerState.reset
      [.set_volt (.fin (-3)), .set_internal_enable true, .set_curr (.fin (5 / 2))]).setVoltage ∧
    F32.fin 0 ≤ (run_commands PowerState.reset
      [.set_volt (.fin (-3)), .set_internal_enable true, .set_curr (.fin (5 / 2))]).setCurrent := by
  have h1 := (setpoints_never_negative.1 PowerState.reset (.fin (-3))
    (fun h => F32.noConfusion h)).1
  have h2 := (setpoints_never_negative.2.1 PowerState.reset (.fin (5 / 2))
    (fun h => F32.noConfusion h)).1
  have h3 := setpoints_never_negative.2.2.2.2
    [.set_volt (.fin (-3)), .set_internal_enable true, .set_curr (.fin (5 / 2))]
    (by
      intro c hc
      simp only [List.mem_cons, List.mem_singleton, List.not_mem_nil, or_false] at hc
      rcases hc with rfl | rfl | rfl <;> simp [Command.has_nan])
  have e1 : F32.max0 (.fin (-3)) = .fin 0 := by
    show F32.fin (max (-3) 0) = F32.fin 0
    norm_num
  have e2 : F32.max0 (.fin (5 / 2)) = .fin (5 / 2) := by
    show F32.fin (max (5 / 2) 0) = F32.fin (5 / 2)
    norm_num
  exact ⟨h1.trans e1, h2.trans e2, h3.1, h3.2⟩

/-- C7: each of the five command handlers returns the acknowledgment `true` for every
argument (negative, infinite and NaN setpoints included) and every prior state. -/
theorem handlers_always_acknowledge (ps : PowerState) :
    (∀ val : F32, (set_volt ps val).2 = true) ∧
    (∀ val : F32, (set_curr ps val).2 = true) ∧
    (∀ enable : Bool, (set_internal_enable ps enable).2 = true) ∧
    (∀ test_active : Bool, (set_warn_lamp_test ps test_active).2 = true) ∧
    (∀ out_active : Bool, (set_example_out ps out_active).2 = true) ∧
    (∀ c : Command, (c.run ps).2 = true) := by
  refine ⟨fun _ => rfl, fun _ => rfl, fun _ => rfl, fun _ => rfl, fun _ => rfl, fun c => ?_⟩
  cases c <;> rfl

/-- C8: each command handler changes exactly its own field of the power state: the boolean
handlers write their argument through unchanged, `set_volt` and `set_curr` write only
`setVoltage` and `setCurrent` (the larger of the argument and zero, a NaN argument as it is),
and no handler modifies `outputEnabled`, `externalEnable`, `probeVoltageOutput` or
`probeCurrent`. -/
theorem handlers_write_only_their_field (ps : PowerState) :
    (∀ enable : Bool, (set_internal_enable ps enable).1 = { ps with internalEnable := enable }) ∧
    (∀ test_active : Bool,
      (set_warn_lamp_test ps test_active).1 = { ps with warnLampTestState := test_active }) ∧
    (∀ out_active : Bool, (set_example_out ps out_active).1 = { ps with ExampleOut := out_active }) ∧
    (∀ val : F32, (set_volt ps val).1
      = { ps with setVoltage := if val = .nan then .nan else F32.max0 val }) ∧
    (∀ val : F32, (set_curr ps val).1
      = { ps with setCurrent := if val = .nan then .nan else F32.max0 val }) ∧
    (∀ c : Command,
      (c.run ps).1.outputEnabled = ps.outputEnabled ∧
      (c.run ps).1.externalEnable = ps.externalEnable ∧
      (c.run ps).1.probeVoltageOutput = ps.probeVoltageOutput ∧
      (c.run ps).1.probeCurrent = ps.probeCurrent) := by
  refine ⟨fun _ => rfl, fun _ => rfl, fun _ => rfl, fun val => ?_, fun val => ?_, fun c => ?_⟩
  · simp only [set_volt, clamp_negative_eq]
  · simp only [set_curr, clamp_negative_eq]
  · cases c <;> exact ⟨rfl, rfl, rfl, rfl⟩

/-! ## PWM carrier generator -/

theorem f32_to_uint32_fin (q : ℚ) (h0 : 0 ≤ q) (h1 : q < 2 ^ 32) :
    f32_to_uint32 (.fin q) = ⌊q⌋.toNat := by
  show (if q < 0 then 0 else min ⌊q⌋.toNat (2 ^ 32 - 1)) = ⌊q⌋.toNat
  rw [if_neg (not_lt.mpr h0)]
  have hf0 : 0 ≤ ⌊q⌋ := Int.floor_nonneg.mpr h0
  have hf1 : ⌊q⌋ < 2 ^ 32 := by
    rw [Int.floor_lt]
    exact_mod_cast h1
  omega

theorem duty_to_ccr_le (arr : ℕ) (d : F32) : duty_to_ccr arr d ≤ arr := by
  unfold duty_to_ccr
  by_cases h : d ≤ .fin 0
  · rw [if_pos h]
    exact Nat.zero_le arr
  · rw [if_neg h]
    simp only
    generalize f32_to_uint32 _ = ccr
    split_ifs with h2
    · exact le_refl arr
    · omega

theorem duty_to_ccr_nonpos (arr : ℕ) (d : F32) (h : d ≤ .fin 0) : duty_to_ccr arr d = 0 := by
  unfold duty_to_ccr
  rw [if_pos h]

theorem not_le_zero_of_one_le (d : F32) (h : F32.fin 1 ≤ d) : ¬ (d ≤ .fin 0) := by
  cases d with
  | fin q =>
    exact fun h0 => absurd (le_trans (f32_fin_le_fin.mp h) (f32_fin_le_fin.mp h0)) (by norm_num)
  | pinf => exact fun h0 => h0
  | ninf => exact False.elim h
  | nan => exact False.elim h

/-- The value the code computes for a finite duty strictly between the clamps. -/
theorem duty_to_ccr_mid (arr : ℕ) (harr : arr ≤ 65535) (q s : ℚ) (h0 : 0 < q) (h1 : q < 1)
    (hs : F32.add (F32.mul (.fin q) (.fin ((arr : ℚ) + 1))) (.fin (1 / 2)) = .fin s)
    (hs0 : 0 ≤ s) (hs1 : s < 2 ^ 32) :
    duty_to_ccr arr (.fin q) = min ⌊s⌋.toNat arr := by
  have hmod : (arr + 1) % 2 ^ 32 = arr + 1 := Nat.mod_eq_of_lt (by omega)
  have hof : F32.of_int (((arr + 1) % 2 ^ 32 : ℕ) : ℤ) = .fin ((arr : ℚ) + 1) := by
    rw [hmod, of_int_small _ (by rw [abs_of_nonneg (by positivity)]; norm_cast; omega)]
    push_cast
    rfl
  have hn0 : ¬ (F32.fin q ≤ .fin 0) := fun h => absurd (f32_fin_le_fin.mp h) (not_le.mpr h0)
  have hn1 : ¬ (F32.fin q ≥ .fin 1) := fun h => absurd (f32_fin_le_fin.mp h) (not_le.mpr h1)
  unfold duty_to_ccr
  rw [if_neg hn0]
  simp only [if_neg hn1, hof, hs]
  rw [f32_to_uint32_fin s hs0 hs1]
  split_ifs with h
  · omega
  · omega

theorem duty_to_ccr_full (arr : ℕ) (harr : arr ≤ 65535) (d : F32) (h : F32.fin 1 ≤ d) :
    duty_to_ccr arr d = arr := by
  have hmod : (arr + 1) % 2 ^ 32 = arr + 1 := Nat.mod_eq_of_lt (by omega)
  have ha : (arr : ℚ) ≤ 65535 := by exact_mod_cast harr
  have ha0 : (0 : ℚ) ≤ arr := Nat.cast_nonneg arr
  have hof : F32.of_int (((arr + 1) % 2 ^ 32 : ℕ) : ℤ) = .fin ((arr : ℚ) + 1) := by
    rw [hmod, of_int_small _ (by rw [abs_of_nonneg (by positivity)]; norm_cast; omega)]
    push_cast
    rfl
  have hp : F32.mul (.fin 1) (.fin ((arr : ℚ) + 1)) = .fin ((arr : ℚ) + 1) := by
    rw [mul_fin_fin, one_mul]
    have e : (arr : ℚ) + 1 = (((arr + 1 : ℕ) : ℤ) : ℚ) := by push_cast; rfl
    rw [e]
    exact rnd_of_int _ (by rw [abs_of_nonneg (by positivity)]; norm_cast; omega)
  have hsum : F32.add (.fin ((arr : ℚ) + 1)) (.fin (1 / 2)) = .fin ((arr : ℚ) + 3 / 2) := by
    rw [add_fin_fin]
    have e : (arr : ℚ) + 1 + 1 / 2 = (((2 * arr + 3 : ℕ) : ℤ) : ℚ) / 2 := by push_cast; ring
    have e2 : (arr : ℚ) + 3 / 2 = (((2 * arr + 3 : ℕ) : ℤ) : ℚ) / 2 := by push_cast; ring
    rw [e, e2]
    exact rnd_of_representable _
      (representable_half_int _ (by rw [abs_of_nonneg (by positivity)]; norm_cast; omega))
  have hfl : ⌊(arr : ℚ) + 3 / 2⌋ = (arr : ℤ) + 1 := by
    rw [Int.floor_eq_iff]
    constructor <;> push_cast <;> linarith
  unfold duty_to_ccr
  rw [if_neg (not_le_zero_of_one_le d h)]
  simp only [ge_iff_le, if_pos h, hof, hp, hsum]
  rw [f32_to_uint32_fin _ (by linarith) (by norm_num; linarith), hfl]
  split_ifs with h2
  · rfl
  · omega

/-- Between the clamps the code's value is the ideal one or one count above it. -/
theorem duty_to_ccr_bracket (arr : ℕ) (harr : arr ≤ 65535) (q : ℚ) (h0 : 0 < q) (h1 : q < 1) :
    ccr_ideal arr q ≤ (duty_to_ccr arr (.fin q) : ℤ) ∧
    (duty_to_ccr arr (.fin q) : ℤ) ≤ ccr_ideal arr q + 1 := by
  have ha : (arr : ℚ) ≤ 65535 := by exact_mod_cast harr
  have ha0 : (0 : ℚ) ≤ arr := Nat.cast_nonneg arr
  obtain ⟨n, hn⟩ : ∃ n : ℤ, round (q * ((arr : ℚ) + 1)) = n := ⟨_, rfl⟩
  have hy0 : 0 ≤ q * ((arr : ℚ) + 1) := by positivity
  have hy1 : q * ((arr : ℚ) + 1) ≤ (arr : ℚ) + 1 := by nlinarith
  have hnf : n = ⌊q * ((arr : ℚ) + 1) + 1 / 2⌋ := by rw [← hn, round_eq]
  have hn0 : 0 ≤ n := by rw [hnf]; exact Int.floor_nonneg.mpr (by linarith)
  have hnle : (n : ℚ) ≤ q * ((arr : ℚ) + 1) + 1 / 2 := by rw [hnf]; exact Int.floor_le _
  have hnlt : q * ((arr : ℚ) + 1) + 1 / 2 < (n : ℚ) + 1 := by
    rw [hnf]; exact Int.lt_floor_add_one _
  have hn1 : n ≤ 65536 := by
    have : (n : ℚ) ≤ 65536 + 1 / 2 := by linarith
    have h2 : (n : ℚ) < 65537 := by linarith
    have : n < 65537 := by exact_mod_cast h2
    omega
  have hnq0 : (0 : ℚ) ≤ n := by exact_mod_cast hn0
  have hnq1 : (n : ℚ) ≤ 65536 := by exact_mod_cast hn1
  -- the rounded product lies between the two half-integers around n
  have hlo : representable (((2 * n - 1 : ℤ) : ℚ) / 2) :=
    representable_half_int _ (by rw [abs_lt]; constructor <;> omega)
  have hhi : representable (((2 * n + 1 : ℤ) : ℚ) / 2) :=
    representable_half_int _ (by rw [abs_lt]; constructor <;> omega)
  obtain ⟨p, hp, hp0, hp1⟩ := rnd_between
    (rnd_ge_of_representable hlo (by push_cast; linarith : _ ≤ q * ((arr : ℚ) + 1)))
    (rnd_le_of_representable hhi (by push_cast; linarith : q * ((arr : ℚ) + 1) ≤ _))
  push_cast at hp0 hp1
  -- the rounded sum lies between n and n + 1
  have hlo2 : representable ((n : ℤ) : ℚ) :=
    representable_int _ (by rw [abs_lt]; constructor <;> omega)
  have hhi2 : representable (((n + 1 : ℤ) : ℤ) : ℚ) :=
    representable_int _ (by rw [abs_lt]; constructor <;> omega)
  obtain ⟨s, hs, hs0, hs1⟩ := rnd_between
    (rnd_ge_of_representable hlo2 (by linarith : _ ≤ p + 1 / 2))
    (rnd_le_of_representable hhi2 (by push_cast; linarith : p + 1 / 2 ≤ _))
  push_cast at hs1
  have hsum : F32.add (F32.mul (.fin q) (.fin ((arr : ℚ) + 1))) (.fin (1 / 2)) = .fin s := by
    rw [mul_fin_fin, hp, add_fin_fin, hs]
  have hv := duty_to_ccr_mid arr harr q s h0 h1 hsum (by linarith) (by norm_num; linarith)
  have hf0 : n ≤ ⌊s⌋ := Int.le_floor.mpr hs0
  have hf1 : ⌊s⌋ ≤ n + 1 := by
    have : ⌊s⌋ ≤ ⌊((n + 1 : ℤ) : ℚ)⌋ := Int.floor_mono (by push_cast; exact hs1)
    rwa [Int.floor_intCast] at this
  have hc : clampQ q 0 1 = q := by
    unfold clampQ
    rw [min_eq_left h1.le, max_eq_right h0.le]
  unfold ccr_ideal
  rw [hc, hn, hv]
  omega

/-- C9 as stated fails: at the 10 kHz period `arr = 9999` and the duty
`d = 15461882 * 2^-35` (the binary32 number `0x39ebedfa`), `d * 10000` is below 4.5, so
`round(clamp(d, 0, 1) * (arr + 1))` is 4; the code rounds the binary32 product to 4.5, adds
0.5 and returns 5. -/
theorem duty_to_ccr_one_count_high :
    representable (7730941 / 17179869184) ∧
    ccr_ideal 9999 (7730941 / 17179869184) = 4 ∧
    duty_to_ccr 9999 (.fin (7730941 / 17179869184)) = 5 := by
  refine ⟨⟨7730941, -34, by norm_num, by norm_num, by norm_num, by norm_num⟩, ?_, ?_⟩
  · unfold ccr_ideal clampQ
    have e : round (max (0 : ℚ) (min (7730941 / 17179869184) 1) * (((9999 : ℕ) : ℚ) + 1)) = 4 := by
      rw [round_eq, Int.floor_eq_iff]
      constructor <;> norm_num
    rw [e]
    norm_num
  · have hp : rnd (7730941 / 17179869184 * (((9999 : ℕ) : ℚ) + 1)) = .fin (9 / 2) := by
      have h := rnd_eval_near (7730941 / 17179869184 * (((9999 : ℕ) : ℚ) + 1)) 2 9437184
        (by norm_num) (by norm_num) (by norm_num) (by norm_num) (by norm_num) (by norm_num)
        (by norm_num)
      rw [h]
      norm_num
    have hs : rnd ((9 : ℚ) / 2 + 1 / 2) = .fin 5 := by
      have e : (9 : ℚ) / 2 + 1 / 2 = ((5 : ℤ) : ℚ) := by norm_num
      rw [e, rnd_of_int 5 (by norm_num)]
      norm_num
    have hv := duty_to_ccr_mid 9999 (by norm_num) (7730941 / 17179869184) 5
      (by norm_num) (by norm_num) (by rw [mul_fin_fin, hp, add_fin_fin, hs]) (by norm_num)
      (by norm_num)
    rw [hv]
    have hf : ⌊(5 : ℚ)⌋ = 5 := by
      rw [Int.floor_eq_iff]
      constructor <;> norm_num
    rw [hf]
    decide

/-- C9 (amended): for every auto-reload value `arr` in `[0, 65535]` and every duty `d`
(finite, infinite or NaN), `duty_to_ccr` returns 0 for `d <= 0`, `arr` for `d >= 1`, and never
more than `arr`; for a finite duty the value returned is
`round(clamp(d, 0, 1) * (arr + 1))` clamped to `[0, arr]`, or one count above it. -/
theorem duty_to_ccr_spec (arr : ℕ) (harr : arr ≤ 65535) (d : F32) :
    (d ≤ .fin 0 → duty_to_ccr arr d = 0) ∧
    (F32.fin 1 ≤ d → duty_to_ccr arr d = arr) ∧
    duty_to_ccr arr d ≤ arr ∧
    (∀ q : ℚ, d = .fin q →
      ccr_ideal arr q ≤ (duty_to_ccr arr d : ℤ) ∧
      (duty_to_ccr arr d : ℤ) ≤ ccr_ideal arr q + 1) := by
  refine ⟨duty_to_ccr_nonpos arr d, duty_to_ccr_full arr harr d, duty_to_ccr_le arr d,
    fun q hq => ?_⟩
  rw [hq]
  have ha0 : (0 : ℚ) ≤ arr := Nat.cast_nonneg arr
  rcases le_or_lt q 0 with h0 | h0
  · rw [duty_to_ccr_nonpos arr _ (f32_fin_le_fin.mpr h0)]
    have hc : clampQ q 0 1 = 0 := by
      unfold clampQ
      exact max_eq_left (le_trans (min_le_left q 1) h0)
    unfold ccr_ideal
    rw [hc]
    simp
  · rcases lt_or_le q 1 with h1 | h1
    · exact duty_to_ccr_bracket arr harr q h0 h1
    · rw [duty_to_ccr_full arr harr _ (f32_fin_le_fin.mpr h1)]
      have hc : clampQ q 0 1 = 1 := by
        unfold clampQ
        rw [min_eq_right h1, max_eq_right (by norm_num)]
      have hr : round ((1 : ℚ) * ((arr : ℚ) + 1)) = (arr : ℤ) + 1 := by
        have e : (1 : ℚ) * ((arr : ℚ) + 1) = (((arr : ℤ) + 1 : ℤ) : ℚ) := by push_cast; ring
        rw [e, round_intCast]
      unfold ccr_ideal
      rw [hc, hr]
      omega

/-- C9, worked example with the 10 kHz period `arr = 9999`: half duty gives 5000, a negative
duty and `-inf` give 0, a duty above one, `+inf` give full scale, NaN stays within the period. -/
theorem duty_examples_arr_9999 :
    duty_to_ccr 9999 (.fin (1 / 2)) = 5000 ∧ duty_to_ccr 9999 (.fin (-3)) = 0 ∧
    duty_to_ccr 9999 .ninf = 0 ∧ duty_to_ccr 9999 (.fin 7) = 9999 ∧
    duty_to_ccr 9999 .pinf = 9999 ∧ duty_to_ccr 9999 .nan ≤ 9999 := by
  have hs : rnd ((1 : ℚ) / 2 * (((9999 : ℕ) : ℚ) + 1)) = .fin 5000 := by
    have e : (1 : ℚ) / 2 * (((9999 : ℕ) : ℚ) + 1) = ((5000 : ℤ) : ℚ) := by norm_num
    rw [e, rnd_of_int 5000 (by norm_num)]
    norm_num
  have hs2 : rnd ((5000 : ℚ) + 1 / 2) = .fin (10001 / 2) := by
    have e : (5000 : ℚ) + 1 / 2 = ((10001 : ℤ) : ℚ) / 2 := by norm_num
    rw [e, rnd_of_representable _ (representable_half_int 10001 (by norm_num))]
    norm_num
  have hv := duty_to_ccr_mid 9999 (by norm_num) (1 / 2) (10001 / 2)
    (by norm_num) (by norm_num) (by rw [mul_fin_fin, hs, add_fin_fin, hs2]) (by norm_num)
    (by norm_num)
  have hf : ⌊(10001 : ℚ) / 2⌋ = 5000 := by
    rw [Int.floor_eq_iff]
    constructor <;> norm_num
  refine ⟨?_, (duty_to_ccr_spec 9999 (by norm_num) (.fin (-3))).1
      (f32_fin_le_fin.mpr (by norm_num)),
    (duty_to_ccr_spec 9999 (by norm_num) .ninf).1 trivial,
    (duty_to_ccr_spec 9999 (by norm_num) (.fin 7)).2.1 (f32_fin_le_fin.mpr (by norm_num)),
    (duty_to_ccr_spec 9999 (by norm_num) .pinf).2.1 trivial,
    (duty_to_ccr_spec 9999 (by norm_num) .nan).2.2.1⟩
  rw [hv, hf]
  decide

theorem float_to_uint32_of_nonneg (x : ℚ) (h0 : 0 ≤ x) (h1 : x < 2 ^ 32) :
    float_to_uint32 x = ⌊x⌋.toNat := by
  unfold float_to_uint32 to_uint32
  rw [if_pos h0]
  have hf0 : 0 ≤ ⌊x⌋ := Int.floor_nonneg.mpr h0
  have hf1 : ⌊x⌋ < 2 ^ 32 := by
    rw [Int.floor_lt]
    exact_mod_cast h1
  omega

theorem prescaler_loop_spec (total : ℕ) (h2 : total < 2 ^ 32) : ∀ (n psc : ℕ),
    n + psc = 65536 → 1 * (psc + 1) ≤ total →
    (∀ p, p < psc → 65537 * (p + 1) ≤ total) →
    ∃ found arr, prescaler_loop total psc = some (found, arr) ∧ found ≤ 65535 ∧
      1 ≤ total / (found + 1) ∧ arr = total / (found + 1) - 1 ∧ arr ≤ 65535 ∧
      ∀ p, p < found → 65535 < total / (p + 1) - 1 := by
  intro n
  induction n with
  | zero =>
    intro psc hn hq hinv
    have h := hinv 65535 (by omega)
    omega
  | succ n ih =>
    intro psc hn hq hinv
    have hpos : 0 < psc + 1 := by omega
    have hq1 : 1 ≤ total / (psc + 1) := (Nat.le_div_iff_mul_le hpos).mpr hq
    have hq2 : total / (psc + 1) ≤ total := Nat.div_le_self _ _
    have hlow : ∀ p, p < psc → 65535 < total / (p + 1) - 1 := by
      intro p hp
      have hp1 : 0 < p + 1 := by omega
      have h := (Nat.le_div_iff_mul_le hp1).mpr (hinv p hp)
      generalize total / (p + 1) = q at h
      omega
    rw [prescaler_loop]
    generalize hqe : total / (psc + 1) = q at hq1 hq2
    have harr : to_uint32 ((q : ℤ) - 1) = q - 1 := by
      unfold to_uint32
      omega
    simp only [harr]
    by_cases hfit : q - 1 ≤ 65535
    · rw [if_pos hfit]
      exact ⟨psc, q - 1, rfl, by omega, by omega, by rw [hqe], hfit, hlow⟩
    · rw [if_neg hfit]
      have hbig : 65537 * (psc + 1) ≤ total := by
        apply (Nat.le_div_iff_mul_le hpos).mp
        omega
      have hpsc : ¬ (psc + 1 > 65535) := by omega
      rw [if_neg hpsc]
      apply ih (psc + 1) (by omega) (by omega)
      intro p hp
      rcases Nat.lt_succ_iff_lt_or_eq.mp hp with h | h
      · exact hinv p h
      · rw [h]; exact hbig

/-- C10: for every 32-bit `total_period_ticks ≥ 1` the prescaler search leaves through
`break` with the smallest prescaler whose period register fits 16 bits: the pair `(psc, arr)`
satisfies `arr = total_period_ticks / (psc + 1) - 1 ≤ 65535` (the quotient is at least 1, so the
subtraction does not wrap), and for every `p < psc` the value `total_period_ticks / (p + 1) - 1`
exceeds 65535. -/
theorem prescaler_search_smallest (total_period_ticks : ℕ)
    (h1 : 1 ≤ total_period_ticks) (h2 : total_period_ticks < 2 ^ 32) :
    ∃ psc arr, prescaler_search total_period_ticks = some (psc, arr) ∧ psc ≤ 65535 ∧
      1 ≤ total_period_ticks / (psc + 1) ∧
      arr = total_period_ticks / (psc + 1) - 1 ∧ arr ≤ 65535 ∧
      ∀ p, p < psc → 65535 < total_period_ticks / (p + 1) - 1 := by
  unfold prescaler_search
  exact prescaler_loop_spec total_period_ticks h2 65536 0 rfl (by omega) (fun p hp => by omega)

/-- C10, worked example: 200000 ticks settle on prescaler 3 and period 49999, and prescaler 2
would need a period above 65535. -/
theorem prescaler_example_200000 :
    prescaler_search 200000 = some (3, 49999) ∧ 49999 = 200000 / (3 + 1) - 1 ∧
    65535 < 200000 / (2 + 1) - 1 := by
  obtain ⟨psc, arr, hs, -, -, ha, -, hmin⟩ :=
    prescaler_search_smallest 200000 (by norm_num) (by norm_num)
  have e : prescaler_search 200000 = some (3, 49999) := by
    unfold prescaler_search
    rw [prescaler_loop]
    simp [to_uint32]
    rw [prescaler_loop]
    simp [to_uint32]
    rw [prescaler_loop]
    simp [to_uint32]
    rw [prescaler_loop]
    simp [to_uint32]
  rw [e] at hs
  simp only [Option.some.injEq, Prod.mk.injEq] at hs
  obtain ⟨h3, h4⟩ := hs
  subst h3
  subst h4
  exact ⟨e, ha, hmin 2 (by norm_num)⟩

/-! ## Timer initialisation -/

theorem total_period_ticks_eq : total_period_ticks = 10000 := by
  unfold total_period_ticks timer_clock_hz f_pwm
  rw [float_to_uint32_of_nonneg _ (by norm_num) (by norm_num)]
  have e : ((200000000 : ℕ) : ℚ) / (2 * 10000) = ((10000 : ℤ) : ℚ) := by norm_num
  rw [e, Int.floor_intCast]
  rfl

theorem prescaler_search_10000 : prescaler_search 10000 = some (0, 9999) := by
  unfold prescaler_search
  rw [prescaler_loop]
  simp [to_uint32]

theorem prescaler_loop_fits (total : ℕ) : ∀ (n psc found arr : ℕ), n + psc = 65536 → 0 < n →
    prescaler_loop total psc = some (found, arr) → found ≤ 65535 ∧ arr ≤ 65535 := by
  intro n
  induction n with
  | zero => intro psc found arr _ h; omega
  | succ n ih =>
    intro psc found arr hn _ h
    rw [prescaler_loop] at h
    split_ifs at h with h1 h2
    · simp only [Option.some.injEq, Prod.mk.injEq] at h
      omega
    · exact ih (psc + 1) found arr (by omega) (by omega) h

theorem prescaler_search_fits (total found arr : ℕ)
    (h : prescaler_search total = some (found, arr)) : found ≤ 65535 ∧ arr ≤ 65535 := by
  unfold prescaler_search at h
  exact prescaler_loop_fits total 65536 0 found arr rfl (by norm_num) h

theorem prescaler_loop_zero : ∀ (n psc : ℕ), n + psc = 65536 → 0 < n →
    prescaler_loop 0 psc = none := by
  intro n
  induction n with
  | zero => intro psc _ h; omega
  | succ n ih =>
    intro psc hn _
    rw [prescaler_loop]
    have harr : to_uint32 (((0 / (psc + 1) : ℕ) : ℤ) - 1) = 4294967295 := by
      simp [to_uint32]
    simp only [harr]
    rw [if_neg (by norm_num)]
    by_cases hp : psc + 1 > 65535
    · rw [if_pos hp]
    · rw [if_neg hp]
      exact ih (psc + 1) (by omega) (by omega)

theorem prescaler_loop_bounded_eq (total : ℕ) : ∀ (fuel psc : ℕ), 65536 ≤ fuel + psc →
    psc ≤ 65535 →
    prescaler_loop_bounded total fuel psc = some (prescaler_loop total psc) := by
  intro fuel
  induction fuel with
  | zero => intro psc h1 h2; omega
  | succ fuel ih =>
    intro psc h1 h2
    rw [prescaler_loop, prescaler_loop_bounded]
    split_ifs with ha hp
    · rfl
    · rfl
    · exact ih (psc + 1) (by omega) (by omega)

theorem ensure_from_inited_iff (total : ℕ) (hal : Hal) (t : Tim1State)
    (ht : t.s_tim1_inited = false) :
    (ensure_tim1_from total hal t).s_tim1_inited = true ↔
      ∃ psc arr, prescaler_search total = some (psc, arr) ∧ arr ≤ 65535 ∧
        hal_steps_ok hal (tim1_configure psc arr t.s_tim1) = true := by
  unfold ensure_tim1_from
  cases hs : prescaler_search total with
  | none => simp [ht]
  | some pa =>
    obtain ⟨psc, arr⟩ := pa
    have hfit := (prescaler_search_fits total psc arr hs).2
    simp only [hal_steps_ok, Option.some.injEq, Prod.mk.injEq, Bool.and_eq_true]
    constructor
    · intro h
      refine ⟨psc, arr, ⟨rfl, rfl⟩, hfit, ?_⟩
      split_ifs at h <;> simp_all
    · rintro ⟨p, a, ⟨rfl, rfl⟩, -, ⟨⟨⟨⟨h1, h2⟩, h3⟩, h4⟩, h5⟩⟩
      simp [h1, h2, h3, h4, h5]

/-- C11: with the compiled-in constants (timer clock 200000000 Hz, carrier 10000 Hz,
center-aligned counting) `ensure_tim1_10khz_pwm` computes `total_period_ticks = 10000`, and
the prescaler search settles on `psc = 0`, `arr = 9999`, for which
`2 * (psc + 1) * (arr + 1) * 10000 = 200000000`; these are the values the function writes
into the handle before it calls the HAL. -/
theorem carrier_10khz_constants :
    total_period_ticks = 10000 ∧
    prescaler_search total_period_ticks = some (0, 9999) ∧
    2 * (0 + 1) * (9999 + 1) * 10000 = timer_clock_hz ∧
    (∀ (hal : Hal) (t : Tim1State),
      ensure_tim1_10khz_pwm hal t
        = if t.s_tim1_inited then t else ensure_tim1_from 10000 hal t) ∧
    (tim1_configure 0 9999 TIM_HandleTypeDef.zero).Init.CounterMode = CounterMode.centeraligned1 ∧
    (ensure_tim1_10khz_pwm hal_nominal Tim1State.reset).s_tim1_inited = true ∧
    (ensure_tim1_10khz_pwm hal_nominal Tim1State.reset).s_tim1.Init.Prescaler = 0 ∧
    (ensure_tim1_10khz_pwm hal_nominal Tim1State.reset).s_tim1.Init.Period = 9999 := by
  have hn : ensure_tim1_10khz_pwm hal_nominal Tim1State.reset
      = ensure_tim1_from 10000 hal_nominal Tim1State.reset := by
    unfold ensure_tim1_10khz_pwm
    rw [total_period_ticks_eq]
    rfl
  refine ⟨total_period_ticks_eq, ?_, rfl, ?_, rfl, ?_, ?_, ?_⟩
  · rw [total_period_ticks_eq]; exact prescaler_search_10000
  · intro hal t
    unfold ensure_tim1_10khz_pwm
    rw [total_period_ticks_eq]
  · rw [hn]; unfold ensure_tim1_from; rw [prescaler_search_10000]; rfl
  · rw [hn]; unfold ensure_tim1_from; rw [prescaler_search_10000]; rfl
  · rw [hn]; unfold ensure_tim1_from; rw [prescaler_search_10000]; rfl

theorem ensure_tim1_of_inited (hal : Hal) (t : Tim1State) (ht : t.s_tim1_inited = true) :
    ensure_tim1_10khz_pwm hal t = t := by
  unfold ensure_tim1_10khz_pwm
  rw [if_pos ht]

theorem ensure_tim1_iterate (hal : Hal) (t : Tim1State) (ht : t.s_tim1_inited = true) :
    ∀ n : ℕ, (ensure_tim1_10khz_pwm hal)^[n] t = t := by
  intro n
  induction n with
  | zero => rfl
  | succ n ih => rw [Function.iterate_succ_apply, ensure_tim1_of_inited hal t ht, ih]

/-- C12: `ensure_tim1_10khz_pwm` is idempotent once initialized.  In every state where
`s_tim1_inited` is true a call returns the state unchanged (handle, registers and flag), so any
number of further calls after a successful one gives the state of that one call; and from an
uninitialized state the flag becomes true exactly when the prescaler search found a period that
fits 16 bits and all five HAL calls reported `HAL_OK`. -/
theorem ensure_tim1_idempotent :
    (∀ (hal : Hal) (t : Tim1State), t.s_tim1_inited = true → ensure_tim1_10khz_pwm hal t = t) ∧
    (∀ (hal later : Hal) (t : Tim1State) (n : ℕ),
      (ensure_tim1_10khz_pwm hal t).s_tim1_inited = true →
      (ensure_tim1_10khz_pwm later)^[n] (ensure_tim1_10khz_pwm hal t)
        = ensure_tim1_10khz_pwm hal t) ∧
    (∀ (total : ℕ) (hal : Hal) (t : Tim1State), t.s_tim1_inited = false →
      ((ensure_tim1_from total hal t).s_tim1_inited = true ↔
        ∃ psc arr, prescaler_search total = some (psc, arr) ∧ arr ≤ 65535 ∧
          hal_steps_ok hal (tim1_configure psc arr t.s_tim1) = true)) ∧
    (∀ (hal : Hal) (t : Tim1State), t.s_tim1_inited = false →
      ((ensure_tim1_10khz_pwm hal t).s_tim1_inited = true ↔
        hal_steps_ok hal (tim1_configure 0 9999 t.s_tim1) = true)) := by
  refine ⟨ensure_tim1_of_inited, fun hal later t n h => ensure_tim1_iterate later _ h n,
    ensure_from_inited_iff, fun hal t ht => ?_⟩
  have e : ensure_tim1_10khz_pwm hal t = ensure_tim1_from 10000 hal t := by
    unfold ensure_tim1_10khz_pwm
    rw [total_period_ticks_eq, ht]
    rfl
  rw [e, ensure_from_inited_iff 10000 hal t ht, prescaler_search_10000]
  constructor
  · rintro ⟨psc, arr, hs, -, hok⟩
    simp only [Option.some.injEq, Prod.mk.injEq] at hs
    rw [hs.1, hs.2]
    exact hok
  · intro hok
    exact ⟨0, 9999, rfl, by norm_num, hok⟩

/-- C12, worked example: with a HAL that accepts every call the timer is initialized from
reset and a later call changes nothing; with a HAL that rejects the base initialisation the
flag stays false. -/
theorem ensure_tim1_examples :
    (ensure_tim1_10khz_pwm hal_nominal Tim1State.reset).s_tim1_inited = true ∧
    ensure_tim1_10khz_pwm hal_rejecting (ensure_tim1_10khz_pwm hal_nominal Tim1State.reset)
      = ensure_tim1_10khz_pwm hal_nominal Tim1State.reset ∧
    (ensure_tim1_10khz_pwm hal_rejecting Tim1State.reset).s_tim1_inited = false := by
  have h1 : (ensure_tim1_10khz_pwm hal_nominal Tim1State.reset).s_tim1_inited = true :=
    (ensure_tim1_idempotent.2.2.2 hal_nominal Tim1State.reset rfl).mpr rfl
  have h3 : ¬ (ensure_tim1_10khz_pwm hal_rejecting Tim1State.reset).s_tim1_inited = true := by
    rw [ensure_tim1_idempotent.2.2.2 hal_rejecting Tim1State.reset rfl]
    decide
  exact ⟨h1, ensure_tim1_idempotent.1 hal_rejecting _ h1, by simpa using h3⟩

theorem ensure_from_of_none (total : ℕ) (hal : Hal) (t : Tim1State)
    (h : prescaler_search total = none) : ensure_tim1_from total hal t = t := by
  unfold ensure_tim1_from
  rw [h]

/-- C19: for every 32-bit `total_period_ticks` the prescaler search loop finishes within
65536 iterations; it leaves through the failure exit exactly when `total_period_ticks = 0`
(then the unsigned subtraction wraps to `2^32 - 1` in every iteration and the timer state is
left as it was), and for every value from 1 on it leaves through `break` with `psc ≤ 65535` and
`arr ≤ 65535`. -/
theorem prescaler_loop_terminates (total : ℕ) (h2 : total < 2 ^ 32) :
    prescaler_loop_bounded total 65536 0 = some (prescaler_search total) ∧
    (prescaler_search total = none ↔ total = 0) ∧
    (total = 0 → ∀ psc : ℕ, to_uint32 (((total / (psc + 1) : ℕ) : ℤ) - 1) = 2 ^ 32 - 1) ∧
    (total = 0 → ∀ (hal : Hal) (t : Tim1State), ensure_tim1_from total hal t = t) ∧
    (1 ≤ total → ∃ psc arr, prescaler_search total = some (psc, arr) ∧
      psc ≤ 65535 ∧ arr ≤ 65535) := by
  have hzero : prescaler_search 0 = none := by
    unfold prescaler_search
    exact prescaler_loop_zero 65536 0 rfl (by norm_num)
  have hbound : prescaler_loop_bounded total 65536 0 = some (prescaler_search total) := by
    unfold prescaler_search
    exact prescaler_loop_bounded_eq total 65536 0 (by norm_num) (by norm_num)
  have hpos : 1 ≤ total → ∃ psc arr, prescaler_search total = some (psc, arr) ∧
      psc ≤ 65535 ∧ arr ≤ 65535 := by
    intro h1
    obtain ⟨psc, arr, hs, hp, -, -, ha, -⟩ :=
      prescaler_loop_spec total h2 65536 0 rfl (by omega) (fun p hp => by omega)
    refine ⟨psc, arr, ?_, hp, ha⟩
    unfold prescaler_search
    exact hs
  refine ⟨hbound, ?_, ?_, ?_, hpos⟩
  · constructor
    · intro hnone
      by_contra hne
      obtain ⟨psc, arr, hs, -⟩ := hpos (Nat.one_le_iff_ne_zero.mpr hne)
      rw [hs] at hnone
      exact Option.noConfusion hnone
    · intro h0
      rw [h0]
      exact hzero
  · intro h0 psc
    rw [h0]
    simp [to_uint32]
  · intro h0 hal t
    exact ensure_from_of_none total hal t (by rw [h0]; exact hzero)

/-- C19, worked example: 0 ticks end in the failure exit and 10000 ticks in `(0, 9999)`, both
within 65536 iterations. -/
theorem prescaler_termination_examples :
    prescaler_loop_bounded 0 65536 0 = some none ∧
    prescaler_loop_bounded 10000 65536 0 = some (some (0, 9999)) := by
  have h0 := (prescaler_loop_terminates 0 (by norm_num))
  have h1 := (prescaler_loop_terminates 10000 (by norm_num)).1
  rw [prescaler_search_10000] at h1
  have hz := h0.2.1.mpr rfl
  have hb := h0.1
  rw [hz] at hb
  exact ⟨hb, h1⟩

/-! ## Current signal conditioner -/

/-! ### Worked binary32 values of the conditioner -/

theorem sample_config_0 :
    sample_current Calibration.config 0 = .fin (-(13841203 / 8388608)) := by
  have h0 : F32.of_int 0 = .fin 0 := of_int_eq 0 0 (by norm_num)
  have h1 : F32.div (.fin 0) (.fin 4095)
      = .fin 0 := by
    rw [div_fin_fin _ _ (by norm_num)]
    exact rnd_zero_eq _ _ (by norm_num)
  have h2 : F32.mul (.fin 0) (.fin (13841203 / 4194304))
      = .fin 0 := by
    rw [mul_fin_fin]
    exact rnd_zero_eq _ _ (by norm_num)
  have h3 : F32.sub (.fin 0) (.fin (13841203 / 8388608))
      = .fin (-(13841203 / 8388608)) := by
    rw [sub_fin_fin]
    exact rnd_exact _ _ (-13841203) (-23) (by norm_num)
  have h4 : F32.mul (.fin (-(13841203 / 8388608))) (.fin 1)
      = .fin (-(13841203 / 8388608)) := by
    rw [mul_fin_fin]
    exact rnd_exact _ _ (-13841203) (-23) (by norm_num)
  have h5 : F32.add (.fin (-(13841203 / 8388608))) (.fin 0)
      = .fin (-(13841203 / 8388608)) := by
    rw [add_fin_fin]
    exact rnd_exact _ _ (-13841203) (-23) (by norm_num)
  show F32.add (F32.mul (F32.sub (F32.mul (F32.div (F32.of_int 0) (.fin 4095))
    (F32.lit 3.3)) (F32.lit 1.65)) (.fin 1)) (.fin 0) = _
  rw [h0, h1, lit_3_3, h2, lit_1_65, h3, h4, h5]

theorem sample_config_2048 :
    sample_current Calibration.config 2048 = .fin (3381 / 8388608) := by
  have h0 : F32.of_int 2048 = .fin 2048 := of_int_eq 2048 2048 (by norm_num)
  have h1 : F32.div (.fin 2048) (.fin 4095)
      = .fin (8390657 / 16777216) := by
    rw [div_fin_fin _ _ (by norm_num)]
    exact rnd_near _ _ (-1) (8390657) (by norm_num)
  have h2 : F32.mul (.fin (8390657 / 16777216)) (.fin (13841203 / 4194304))
      = .fin (1730573 / 1048576) := by
    rw [mul_fin_fin]
    exact rnd_near _ _ (0) (13844584) (by norm_num)
  have h3 : F32.sub (.fin (1730573 / 1048576)) (.fin (13841203 / 8388608))
      = .fin (3381 / 8388608) := by
    rw [sub_fin_fin]
    exact rnd_exact _ _ (13848576) (-35) (by norm_num)
  have h4 : F32.mul (.fin (3381 / 8388608)) (.fin 1)
      = .fin (3381 / 8388608) := by
    rw [mul_fin_fin]
    exact rnd_exact _ _ (13848576) (-35) (by norm_num)
  have h5 : F32.add (.fin (3381 / 8388608)) (.fin 0)
      = .fin (3381 / 8388608) := by
    rw [add_fin_fin]
    exact rnd_exact _ _ (13848576) (-35) (by norm_num)
  show F32.add (F32.mul (F32.sub (F32.mul (F32.div (F32.of_int 2048) (.fin 4095))
    (F32.lit 3.3)) (F32.lit 1.65)) (.fin 1)) (.fin 0) = _
  rw [h0, h1, lit_3_3, h2, lit_1_65, h3, h4, h5]

theorem sample_config_4095 :
    sample_current Calibration.config 4095 = .fin (13841203 / 8388608) := by
  have h0 : F32.of_int 4095 = .fin 4095 := of_int_eq 4095 4095 (by norm_num)
  have h1 : F32.div (.fin 4095) (.fin 4095)
      = .fin 1 := by
    rw [div_fin_fin _ _ (by norm_num)]
    exact rnd_exact _ _ (8388608) (-23) (by norm_num)
  have h2 : F32.mul (.fin 1) (.fin (13841203 / 4194304))
      = .fin (13841203 / 4194304) := by
    rw [mul_fin_fin]
    exact rnd_exact _ _ (13841203) (-22) (by norm_num)
  have h3 : F32.sub (.fin (13841203 / 4194304)) (.fin (13841203 / 8388608))
      = .fin (13841203 / 8388608) := by
    rw [sub_fin_fin]
    exact rnd_exact _ _ (13841203) (-23) (by norm_num)
  have h4 : F32.mul (.fin (13841203 / 8388608)) (.fin 1)
      = .fin (13841203 / 8388608) := by
    rw [mul_fin_fin]
    exact rnd_exact _ _ (13841203) (-23) (by norm_num)
  have h5 : F32.add (.fin (13841203 / 8388608)) (.fin 0)
      = .fin (13841203 / 8388608) := by
    rw [add_fin_fin]
    exact rnd_exact _ _ (13841203) (-23) (by norm_num)
  show F32.add (F32.mul (F32.sub (F32.mul (F32.div (F32.of_int 4095) (.fin 4095))
    (F32.lit 3.3)) (F32.lit 1.65)) (.fin 1)) (.fin 0) = _
  rw [h0, h1, lit_3_3, h2, lit_1_65, h3, h4, h5]

theorem filter_step_full_zero :
    filter_step (.fin (13841203 / 8388608)) (.fin (-(13841203 / 8388608)))
      = .fin (5536481 / 4194304) := by
  have h1 : F32.mul (.fin (7549747 / 8388608)) (.fin (13841203 / 8388608))
      = .fin (6228541 / 4194304) := by
    rw [mul_fin_fin]
    exact rnd_near _ _ (0) (12457082) (by norm_num)
  have h2 : F32.mul (.fin (13421773 / 134217728)) (.fin (-(13841203 / 8388608)))
      = .fin (-(11072963 / 67108864)) := by
    rw [mul_fin_fin]
    exact rnd_near_neg _ _ (-3) (11072963) (by norm_num)
  have h3 : F32.add (.fin (6228541 / 4194304)) (.fin (-(11072963 / 67108864)))
      = .fin (5536481 / 4194304) := by
    rw [add_fin_fin]
    exact rnd_near _ _ (0) (11072962) (by norm_num)
  unfold filter_step
  rw [lit_0_9, lit_0_1, h1, h2, h3]

theorem update_current_filtered (cal : Calibration) (raw_adc : ℤ) (st : CurrentState) :
    (update_current cal raw_adc st).filtered_probe_current
      = (if st.current_filter_initialized then
          filter_step st.filtered_probe_current (sample_current cal raw_adc)
        else sample_current cal raw_adc) ∧
    (update_current cal raw_adc st).ps
      = { st.ps with probeCurrent := (update_current cal raw_adc st).filtered_probe_current } ∧
    (update_current cal raw_adc st).current_filter_initialized = true ∧
    (update_current cal raw_adc st).tim.s_tim1_inited = st.tim.s_tim1_inited := by
  unfold update_current
  cases hi : st.current_filter_initialized <;> cases ht : st.tim.s_tim1_inited <;> simp [hi, ht]

theorem update_current_seed (cal : Calibration) (raw_adc : ℤ) (st : CurrentState)
    (h : st.current_filter_initialized = false) :
    (update_current cal raw_adc st).filtered_probe_current = sample_current cal raw_adc := by
  rw [(update_current_filtered cal raw_adc st).1, h]
  rfl

theorem update_current_step (cal : Calibration) (raw_adc : ℤ) (st : CurrentState)
    (h : st.current_filter_initialized = true) :
    (update_current cal raw_adc st).filtered_probe_current
      = filter_step st.filtered_probe_current (sample_current cal raw_adc) := by
  rw [(update_current_filtered cal raw_adc st).1, h]
  rfl

theorem update_current_published (cal : Calibration) (raw_adc : ℤ) (st : CurrentState) :
    (update_current cal raw_adc st).ps.probeCurrent
      = (update_current cal raw_adc st).filtered_probe_current := by
  rw [(update_current_filtered cal raw_adc st).2.1]

/-- C13: filter state machine of `update_current`.  On a call with
`current_filter_initialized = false` the filter state becomes exactly the converted sample; on
a call with it true the new filter state is `0.9f * old + 0.1f * sample` (binary32 products
and sum); after every call `PowerState::probeCurrent` equals the filter state just computed
and the filter is marked initialized. -/
theorem filter_state_machine (cal : Calibration) (raw_adc : ℤ) (st : CurrentState) :
    (st.current_filter_initialized = false →
      (update_current cal raw_adc st).filtered_probe_current = sample_current cal raw_adc) ∧
    (st.current_filter_initialized = true →
      (update_current cal raw_adc st).filtered_probe_current
        = F32.add (F32.mul (F32.lit 0.9) st.filtered_probe_current)
            (F32.mul (F32.lit 0.1) (sample_current cal raw_adc))) ∧
    (update_current cal raw_adc st).ps.probeCurrent
      = (update_current cal raw_adc st).filtered_probe_current ∧
    (update_current cal raw_adc st).current_filter_initialized = true := by
  exact ⟨update_current_seed cal raw_adc st, update_current_step cal raw_adc st,
    update_current_published cal raw_adc st, (update_current_filtered cal raw_adc st).2.2.1⟩

theorem example_seeded_state :
    example_seeded.current_filter_initialized = true ∧
    example_seeded.filtered_probe_current = .fin (13841203 / 8388608) ∧
    example_seeded.tim = Tim1State.reset := by
  obtain ⟨hf, -, hi, -⟩ := update_current_filtered Calibration.config 4095 CurrentState.reset
  refine ⟨hi, ?_, rfl⟩
  unfold example_seeded
  rw [hf, sample_config_4095]
  rfl

/-- C13, worked example: from reset a full-scale reading seeds the filter with the sample
`1.65f`; a zero reading after it (sample `-1.65f`) gives
`0.9f * 1.65f + 0.1f * (-1.65f) = 5536481 / 4194304`, about 1.32, which is also what is
published. -/
theorem state_machine_two_step_example :
    (update_current Calibration.config 4095 CurrentState.reset).filtered_probe_current
      = .fin (13841203 / 8388608) ∧
    (update_current Calibration.config 0
      (update_current Calibration.config 4095 CurrentState.reset)).filtered_probe_current
      = .fin (5536481 / 4194304) ∧
    (update_current Calibration.config 0
      (update_current Calibration.config 4095 CurrentState.reset)).ps.probeCurrent
      = .fin (5536481 / 4194304) := by
  have h1 := (filter_state_machine Calibration.config 4095 CurrentState.reset).1 rfl
  rw [sample_config_4095] at h1
  obtain ⟨-, h2, h3, -⟩ := filter_state_machine Calibration.config 0
    (update_current Calibration.config 4095 CurrentState.reset)
  have h4 := h2 (filter_state_machine Calibration.config 4095 CurrentState.reset).2.2.2
  rw [h1, sample_config_0] at h4
  have h5 := filter_step_full_zero
  unfold filter_step at h5
  rw [h5] at h4
  exact ⟨h1, h4, h3.trans h4⟩

/-- C14: sensing does not depend on actuation readiness.  In every state with
`s_tim1_inited = false`, `update_current` leaves the timer state untouched (no compare
register is written), and still senses: the new filter state is the converted sample of this
reading on the seeding call and `0.9f * old + 0.1f * sample` afterwards, it is published in
`probeCurrent` with every other field of the power state unchanged, and the filter is marked
initialized.  Filter state and power state are the ones the call produces from the same state
with the timer initialized. -/
theorem sensing_without_timer (cal : Calibration) (raw_adc : ℤ) (st : CurrentState)
    (h : st.tim.s_tim1_inited = false) :
    (update_current cal raw_adc st).tim = st.tim ∧
    (update_current cal raw_adc st).filtered_probe_current
      = (if st.current_filter_initialized then
          F32.add (F32.mul (F32.lit 0.9) st.filtered_probe_current)
            (F32.mul (F32.lit 0.1) (sample_current cal raw_adc))
        else sample_current cal raw_adc) ∧
    (update_current cal raw_adc st).ps
      = { st.ps with probeCurrent :=
          (if st.current_filter_initialized then
            F32.add (F32.mul (F32.lit 0.9) st.filtered_probe_current)
              (F32.mul (F32.lit 0.1) (sample_current cal raw_adc))
          else sample_current cal raw_adc) } ∧
    (update_current cal raw_adc st).current_filter_initialized = true ∧
    (update_current cal raw_adc st).filtered_probe_current
      = (update_current cal raw_adc
          { st with tim := { st.tim with s_tim1_inited := true } }).filtered_probe_current ∧
    (update_current cal raw_adc st).ps
      = (update_current cal raw_adc
          { st with tim := { st.tim with s_tim1_inited := true } }).ps := by
  obtain ⟨hf, hp, hi, -⟩ := update_current_filtered cal raw_adc st
  obtain ⟨hf2, hp2, -, -⟩ := update_current_filtered cal raw_adc
    { st with tim := { st.tim with s_tim1_inited := true } }
  have hf3 : (update_current cal raw_adc st).filtered_probe_current
      = (if st.current_filter_initialized then
          F32.add (F32.mul (F32.lit 0.9) st.filtered_probe_current)
            (F32.mul (F32.lit 0.1) (sample_current cal raw_adc))
        else sample_current cal raw_adc) := hf
  refine ⟨?_, hf3, ?_, hi, ?_, ?_⟩
  · unfold update_current
    simp [h]
  · rw [hp, hf3]
  · rw [hf, hf2]
  · rw [hp, hp2, hf, hf2]

/-- C14, worked example: from reset, where the timer is not initialized, the reading 4095 is
converted to `1.65f`, stored in the filter and published, and the timer state stays at its
reset value; a second reading 0 is filtered to `5536481 / 4194304`, still without a timer. -/
theorem sensing_example_from_reset :
    (update_current Calibration.config 4095 CurrentState.reset).tim = Tim1State.reset ∧
    (update_current Calibration.config 4095 CurrentState.reset).filtered_probe_current
      = .fin (13841203 / 8388608) ∧
    (update_current Calibration.config 4095 CurrentState.reset).ps.probeCurrent
      = .fin (13841203 / 8388608) ∧
    (update_current Calibration.config 0 example_seeded).tim = Tim1State.reset ∧
    (update_current Calibration.config 0 example_seeded).ps.probeCurrent
      = .fin (5536481 / 4194304) := by
  obtain ⟨h1, h2, h3, -, -, -⟩ :=
    sensing_without_timer Calibration.config 4095 CurrentState.reset rfl
  obtain ⟨k1, k2, k3, -, -, -⟩ :=
    sensing_without_timer Calibration.config 0 example_seeded
      (by rw [example_seeded_state.2.2]; rfl)
  have e1 : (update_current Calibration.config 4095 CurrentState.reset).filtered_probe_current
      = .fin (13841203 / 8388608) := by
    rw [h2, sample_config_4095]; rfl
  have h5 := filter_step_full_zero
  unfold filter_step at h5
  refine ⟨h1, e1, ?_, ?_, ?_⟩
  · rw [h3, sample_config_4095]; rfl
  · rw [k1, example_seeded_state.2.2]
  · rw [k3, example_seeded_state.1, example_seeded_state.2.1, sample_config_0, if_pos rfl, h5]

theorem round5_sample_2048 : round5 (3381 / 8388608) = 0.0004 := by
  unfold round5
  have e : round ((3381 : ℚ) / 8388608 * 100000) = 40 := by
    rw [round_eq, Int.floor_eq_iff]
    constructor <;> norm_num
  rw [e]
  norm_num

/-- C15 (amended): with raw ADC 2048, full scale 4095, reference 3.3, mid reference 1.65,
`VScale_C = 1` and `VOffset_C = 0` the converted sample is the binary32 number
`3381 / 8388608`, about 0.000403 (within `2e-7` of the exact value `11/27300` of the
formula), which is 0.00040 when rounded to five decimal places; after this first sample the
filter state equals the sample exactly and the published `probeCurrent` equals the filter
state. -/
theorem adc_2048_end_to_end (st : CurrentState) (h : st.current_filter_initialized = false) :
    sample_current Calibration.config 2048 = .fin (3381 / 8388608) ∧
    round5 (3381 / 8388608) = 0.0004 ∧
    |(3381 : ℚ) / 8388608 - 0.000403| < 0.000001 ∧
    |(3381 : ℚ) / 8388608 - sample_ideal 1 0 2048| < 0.0000002 ∧
    sample_ideal 1 0 2048 = 11 / 27300 ∧
    (update_current Calibration.config 2048 st).filtered_probe_current
      = sample_current Calibration.config 2048 ∧
    (update_current Calibration.config 2048 st).ps.probeCurrent
      = (update_current Calibration.config 2048 st).filtered_probe_current := by
  have hi : sample_ideal 1 0 2048 = 11 / 27300 := by
    unfold sample_ideal
    norm_num
  refine ⟨sample_config_2048, round5_sample_2048, ?_, ?_, hi,
    update_current_seed Calibration.config 2048 st h,
    update_current_published Calibration.config 2048 st⟩
  · rw [abs_lt]
    constructor <;> norm_num
  · rw [hi, abs_lt]
    constructor <;> norm_num

/-- C15, worked example: from the reset state the reading 2048 leaves `3381 / 8388608` in the
filter and in `probeCurrent`. -/
theorem adc_2048_from_reset :
    (update_current Calibration.config 2048 CurrentState.reset).filtered_probe_current
      = .fin (3381 / 8388608) ∧
    (update_current Calibration.config 2048 CurrentState.reset).ps.probeCurrent
      = .fin (3381 / 8388608) := by
  obtain ⟨hs, -, -, -, -, hf, hp⟩ := adc_2048_end_to_end CurrentState.reset rfl
  rw [hs] at hf
  exact ⟨hf, hp.trans hf⟩

/-- C15 as stated fails: the sample converted from raw ADC 2048 is `3381 / 8388608`; rounded to
five decimal places it is 0.00040, not 0.00081, and it is more than 0.0004 away from
0.00081. -/
theorem adc_2048_sample_is_not_81 :
    sample_current Calibration.config 2048 = .fin (3381 / 8388608) ∧
    round5 (3381 / 8388608) ≠ 0.00081 ∧
    0.0004 < |(3381 : ℚ) / 8388608 - 0.00081| := by
  refine ⟨sample_config_2048, ?_, ?_⟩
  · rw [round5_sample_2048]
    norm_num
  · rw [lt_abs]
    right
    norm_num

theorem gauge_duty_eq_clamp (f : F32) :
    gauge_duty f = F32.clamp01 (F32.div (F32.add f (.fin 4250)) (.fin 8500)) := by
  unfold gauge_duty
  generalize F32.div (F32.add f (.fin 4250)) (.fin 8500) = x
  cases x with
  | fin q =>
    show (if (if F32.fin q < .fin 0 then F32.fin 0 else .fin q) > .fin 1 then F32.fin 1
      else (if F32.fin q < .fin 0 then F32.fin 0 else .fin q)) = .fin (clampQ q 0 1)
    unfold clampQ
    by_cases h0 : q < 0
    · have h1 : ¬ (F32.fin 0 > .fin 1) := fun h => absurd (f32_fin_lt_fin.mp h) (by norm_num)
      rw [if_pos (f32_fin_lt_fin.mpr h0), if_neg h1,
        max_eq_left (le_trans (min_le_left q 1) h0.le)]
    · rw [if_neg (fun h => h0 (f32_fin_lt_fin.mp h))]
      by_cases h1 : 1 < q
      · rw [if_pos (f32_fin_lt_fin.mpr h1), min_eq_right h1.le, max_eq_right (by norm_num)]
      · rw [if_neg (fun h => h1 (f32_fin_lt_fin.mp h)), min_eq_left (not_lt.mp h1),
          max_eq_right (not_lt.mp h0)]
  | pinf =>
    have h0 : ¬ (F32.pinf < .fin 0) := fun h => h
    have h1 : F32.pinf > .fin 1 := trivial
    show (if (if F32.pinf < .fin 0 then F32.fin 0 else .pinf) > .fin 1 then F32.fin 1
      else (if F32.pinf < .fin 0 then F32.fin 0 else .pinf)) = .fin 1
    rw [if_neg h0, if_pos h1]
  | ninf =>
    have h0 : F32.ninf < .fin 0 := trivial
    have h1 : ¬ (F32.fin 0 > .fin 1) := fun h => absurd (f32_fin_lt_fin.mp h) (by norm_num)
    show (if (if F32.ninf < .fin 0 then F32.fin 0 else .ninf) > .fin 1 then F32.fin 1
      else (if F32.ninf < .fin 0 then F32.fin 0 else .ninf)) = .fin 0
    rw [if_pos h0, if_neg h1]
  | nan =>
    have h0 : ¬ (F32.nan < .fin 0) := fun h => h
    have h1 : ¬ (F32.nan > .fin 1) := fun h => h
    show (if (if F32.nan < .fin 0 then F32.fin 0 else .nan) > .fin 1 then F32.fin 1
      else (if F32.nan < .fin 0 then F32.fin 0 else .nan)) = .nan
    rw [if_neg h0, if_neg h1]

theorem clamp01_range (x : F32) (h : x ≠ .nan) :
    F32.fin 0 ≤ F32.clamp01 x ∧ F32.clamp01 x ≤ .fin 1 := by
  cases x with
  | fin q =>
    exact ⟨f32_fin_le_fin.mpr (le_max_left _ _),
      f32_fin_le_fin.mpr (max_le (by norm_num) (min_le_right _ _))⟩
  | pinf => exact ⟨f32_fin_le_fin.mpr (by norm_num), f32_fin_le_fin.mpr le_rfl⟩
  | ninf => exact ⟨f32_fin_le_fin.mpr le_rfl, f32_fin_le_fin.mpr (by norm_num)⟩
  | nan => exact absurd rfl h

theorem clamp01_not_outside (x : F32) :
    ¬ (F32.clamp01 x < .fin 0) ∧ ¬ (F32.fin 1 < F32.clamp01 x) := by
  by_cases h : x = .nan
  · rw [h]
    exact ⟨fun h => h, fun h => h⟩
  · exact ⟨f32_not_lt_of_le (clamp01_range x h).1, f32_not_lt_of_le (clamp01_range x h).2⟩

theorem clamp01_low (x : F32) (h : x ≤ .fin 0) : F32.clamp01 x = .fin 0 := by
  cases x with
  | fin q =>
    show F32.fin (clampQ q 0 1) = .fin 0
    unfold clampQ
    rw [max_eq_left (le_trans (min_le_left q 1) (f32_fin_le_fin.mp h))]
  | pinf => exact False.elim h
  | ninf => rfl
  | nan => exact False.elim h

theorem clamp01_high (x : F32) (h : F32.fin 1 ≤ x) : F32.clamp01 x = .fin 1 := by
  cases x with
  | fin q =>
    show F32.fin (clampQ q 0 1) = .fin 1
    unfold clampQ
    rw [min_eq_right (f32_fin_le_fin.mp h), max_eq_right (by norm_num)]
  | pinf => rfl
  | ninf => exact False.elim h
  | nan => exact False.elim h

theorem scaled_reading_ne_nan (f : F32) (h : f ≠ .nan) :
    F32.div (F32.add f (.fin 4250)) (.fin 8500) ≠ .nan := by
  have hd : ∀ q : ℚ, F32.div (rnd q) (.fin 8500) ≠ .nan := by
    intro q
    rcases rnd_cases q with ⟨e, -⟩ | ⟨e, -⟩ | ⟨e, -⟩
    · rw [e, div_fin_fin _ _ (by norm_num)]
      exact rnd_ne_nan _
    · rw [e]; exact fun h => F32.noConfusion h
    · rw [e]; exact fun h => F32.noConfusion h
  cases f with
  | fin q => rw [add_fin_fin]; exact hd _
  | pinf => exact fun h => F32.noConfusion h
  | ninf => exact fun h => F32.noConfusion h
  | nan => exact absurd rfl h

theorem scaled_reading_low (f : F32) (h : f ≤ .fin (-4250)) :
    F32.div (F32.add f (.fin 4250)) (.fin 8500) ≤ .fin 0 := by
  have h1 : F32.add f (.fin 4250) ≤ F32.add (.fin (-4250)) (.fin 4250) := add_fin_mono 4250 h
  have h2 := div_fin_mono 8500 (by norm_num) h1
  have e : F32.div (F32.add (.fin (-4250)) (.fin 4250)) (.fin 8500) = .fin 0 := by
    rw [add_fin_fin, rnd_zero_eq (-4250 + 4250) 0 (by norm_num), div_fin_fin _ _ (by norm_num),
      rnd_zero_eq (0 / 8500) 0 (by norm_num)]
  rwa [e] at h2

theorem scaled_reading_high (f : F32) (h : F32.fin 4250 ≤ f) :
    F32.fin 1 ≤ F32.div (F32.add f (.fin 4250)) (.fin 8500) := by
  have h1 : F32.add (.fin 4250) (.fin 4250) ≤ F32.add f (.fin 4250) := add_fin_mono 4250 h
  have h2 := div_fin_mono 8500 (by norm_num) h1
  have e : F32.div (F32.add (.fin 4250) (.fin 4250)) (.fin 8500) = .fin 1 := by
    rw [add_fin_fin, rnd_exact (4250 + 4250) 8500 8500 0 (by norm_num),
      div_fin_fin _ _ (by norm_num), rnd_exact (8500 / 8500) 1 1 0 (by norm_num)]
  rwa [e] at h2

/-- C18: duty-cycle clamp of `update_current`.  For every filtered value `f` the duty passed
to `duty_to_ccr` is `clamp((f + 4250.0f) / 8500.0f, 0, 1)` (binary32 sum and quotient); for
every `f` of any magnitude or sign, infinite ones included, it lies in `[0, 1]`, is 0 for
`f <= -4250` and 1 for `f >= 4250`; for no `f` at all, NaN included, is it below 0 or above
1; with the timer initialized the value written to the compare register of channel 3 is
`duty_to_ccr` of that duty and lies in `[0, arr]`. -/
theorem gauge_duty_clamped :
    (∀ f : F32,
      gauge_duty f = F32.clamp01 (F32.div (F32.add f (.fin 4250)) (.fin 8500))) ∧
    (∀ f : F32, f ≠ .nan → F32.fin 0 ≤ gauge_duty f ∧ gauge_duty f ≤ .fin 1) ∧
    (∀ f : F32, ¬ (gauge_duty f < .fin 0) ∧ ¬ (F32.fin 1 < gauge_duty f)) ∧
    (∀ f : F32, f ≤ .fin (-4250) → gauge_duty f = .fin 0) ∧
    (∀ f : F32, F32.fin 4250 ≤ f → gauge_duty f = .fin 1) ∧
    (∀ (cal : Calibration) (raw_adc : ℤ) (st : CurrentState), st.tim.s_tim1_inited = true →
      (update_current cal raw_adc st).tim.s_tim1.CCR3
        = duty_to_ccr st.tim.s_tim1.ARR
            (gauge_duty (update_current cal raw_adc st).filtered_probe_current) ∧
      (update_current cal raw_adc st).tim.s_tim1.CCR3 ≤ st.tim.s_tim1.ARR ∧
      (update_current cal raw_adc st).tim.s_tim1.ARR = st.tim.s_tim1.ARR) := by
  refine ⟨gauge_duty_eq_clamp, fun f hf => ?_, fun f => ?_, fun f hf => ?_, fun f hf => ?_,
    fun cal raw_adc st ht => ?_⟩
  · rw [gauge_duty_eq_clamp]
    exact clamp01_range _ (scaled_reading_ne_nan f hf)
  · rw [gauge_duty_eq_clamp]
    exact clamp01_not_outside _
  · rw [gauge_duty_eq_clamp]
    exact clamp01_low _ (scaled_reading_low f hf)
  · rw [gauge_duty_eq_clamp]
    exact clamp01_high _ (scaled_reading_high f hf)
  · have hc : (update_current cal raw_adc st).tim.s_tim1.CCR3
        = duty_to_ccr st.tim.s_tim1.ARR
            (gauge_duty (update_current cal raw_adc st).filtered_probe_current) := by
      unfold update_current
      simp [ht]
    refine ⟨hc, ?_, ?_⟩
    · rw [hc]
      exact duty_to_ccr_le _ _
    · unfold update_current
      simp [ht]

theorem example_timer_ready_tim :
    example_timer_ready.tim.s_tim1_inited = true ∧ example_timer_ready.tim.s_tim1.ARR = 9999 := by
  have hn : example_timer_ready.tim = ensure_tim1_from 10000 hal_nominal Tim1State.reset := by
    unfold example_timer_ready init_current ensure_tim1_10khz_pwm
    rw [total_period_ticks_eq]
    rfl
  rw [hn]
  unfold ensure_tim1_from
  rw [prescaler_search_10000]
  exact ⟨rfl, rfl⟩

/-- C18, worked example: -5000 and `-inf` give duty 0, 5000 and `+inf` give duty 1, 0 gives
duty 1/2, and with the timer running at `arr = 9999` the compare value written for reading
2048 is at most 9999. -/
theorem gauge_duty_examples :
    gauge_duty (.fin (-5000)) = .fin 0 ∧ gauge_duty .ninf = .fin 0 ∧
    gauge_duty (.fin 5000) = .fin 1 ∧ gauge_duty .pinf = .fin 1 ∧
    gauge_duty (.fin 0) = .fin (1 / 2) ∧
    (update_current Calibration.config 2048 example_timer_ready).tim.s_tim1.CCR3 ≤ 9999 := by
  obtain ⟨h1, -, -, h3, h4, h5⟩ := gauge_duty_clamped
  have hc := (h5 Calibration.config 2048 example_timer_ready example_timer_ready_tim.1).2.1
  rw [example_timer_ready_tim.2] at hc
  refine ⟨h3 _ (f32_fin_le_fin.mpr (by norm_num)), h3 _ trivial,
    h4 _ (f32_fin_le_fin.mpr (by norm_num)), h4 _ trivial, ?_, hc⟩
  rw [h1, add_fin_fin, rnd_exact (0 + 4250) 4250 4250 0 (by norm_num),
    div_fin_fin _ _ (by norm_num), rnd_exact (4250 / 8500) (1 / 2) 1 (-1) (by norm_num)]
  show F32.fin (clampQ (1 / 2) 0 1) = .fin (1 / 2)
  unfold clampQ
  norm_num

end Firmware
